import Mathlib

/-!
Verification development for the static-file resolver in `src/index.js`
(the `send` function of a koa static-file helper).

The JavaScript function is embedded shallowly:

* the koa context is a record `Ctx` holding the negotiated encoding
  preferences, the response headers, the content type slot and the body slot;
* the filesystem is an abstract capability `FileSys` (an existence check used
  by `exists`, and `stat` returning either `Stats` or an error carrying the
  `errno` code string);
* every filesystem probe performed by the pipeline is recorded, in order, in
  a trace of `FsOp` values, so that claims about probes never happening can
  be stated;
* thrown errors (koa `ctx.throw`, `http-errors` values, `TypeError`,
  assertion failures) become the `SendOutcome.thrown` constructor, the bare
  `return` statements become `SendOutcome.notApplicable`, and the final
  `return path` becomes `SendOutcome.resolved`.

Strings are modelled by Lean `String` (a list of unicode scalar values);
`decodeURIComponent` is modelled on scalar values, so JavaScript strings
containing lone UTF-16 surrogates are outside the model.  All helpers are
implemented directly on `String.data` lists so that every definition reduces
in the kernel.
-/

/-- Result of a successful `fs.stat`: whether the node is a directory
(`stats.isDirectory()`), its byte size (`stats.size`) and the formatted
modification time (`stats.mtime.toUTCString()`). -/
structure Stats where
  isDir : Bool
  size : Nat
  mtimeUTC : String
deriving DecidableEq, Repr

/-- A failed `fs.stat`, carrying the `errno` code string (`err.code`). -/
structure StatErr where
  code : String
deriving DecidableEq, Repr

/-- One filesystem probe performed by the pipeline: an `fs.access` existence
check (the `exists` helper) or an `fs.stat` call. -/
inductive FsOp where
  | access (path : String)
  | statOp (path : String)
deriving DecidableEq, Repr

/-- The abstract filesystem capability: `access` tells whether `fs.access`
succeeds (the `exists` helper swallows the error and returns a boolean), and
`stat` models `fs.stat`. -/
structure FileSys where
  access : String → Bool
  stat : String → Except StatErr Stats

/-- The koa context, restricted to what `send` observes and mutates:
`acceptBr` is the value of `ctx.acceptsEncodings('br', 'identity') === 'br'`,
`acceptGzip` of `ctx.acceptsEncodings('gzip', 'identity') === 'gzip'`;
`headers` are the response headers (keys stored lowercased, as koa treats
header names case-insensitively); `ctype` is the `ctx.type` slot (empty
string when unset, matching koa falsiness); `body` is the response body slot,
holding the path handed to `fs.createReadStream`. -/
structure Ctx where
  acceptBr : Bool
  acceptGzip : Bool
  headers : List (String × String)
  ctype : String
  body : Option String
deriving DecidableEq, Repr

/-- Errors surfaced by `send`.  `badRequest` is `ctx.throw(400, ...)`,
`malicious` and `containment` are the errors propagated from the
`resolve-path` join (absolute-path override, resp. `..` escaping the root),
`notFound` is `createError(404, err)` wrapping the stat error, `serverError`
is the re-thrown stat error with `err.status = 500`, `configError` is a
thrown `TypeError`, `assertFail` a failed entry assertion. -/
inductive SendError where
  | assertFail (msg : String)
  | badRequest (msg : String)
  | malicious
  | containment
  | notFound (cause : StatErr)
  | serverError (cause : StatErr)
  | configError (msg : String)
deriving DecidableEq, Repr

/-- Overall outcome of one `send` invocation: the returned final path, the
bare `return` (nothing to serve, caller falls through), or a thrown error. -/
inductive SendOutcome where
  | resolved (path : String)
  | notApplicable
  | thrown (e : SendError)
deriving DecidableEq, Repr

/-- Everything observable about one `send` invocation: the outcome, the koa
context after the call (header/body mutations persist even on a throw), the
final value of the `encodingExt` variable, and the ordered trace of
filesystem probes. -/
structure SendResult where
  outcome : SendOutcome
  ctx : Ctx
  encExt : String
  trace : List FsOp
deriving DecidableEq, Repr

/-- An entry of the `extensions` option.  The source only distinguishes
string entries from non-string ones (`typeof ext !== 'string'` throws); a
non-string entry is abstracted as `nonString`.  (Array-valued entries, which
`[].concat` would splice, are outside the model.) -/
inductive ExtEntry where
  | str (s : String)
  | nonString
deriving DecidableEq, Repr

/-- The `setHeaders` option: absent, a callback (receiving the response, the
final path and the stats), or present but not a function (which the source
rejects with a `TypeError` before doing anything else). -/
inductive SetHeadersOpt where
  | noHook
  | fn (f : Ctx → String → Stats → Ctx)
  | notFunction

/-- The options bag of `send`.  Every field is optional, `none` meaning the
key is absent.  Numeric and boolean fields are typed; the JavaScript
truthiness coercions the source applies are reproduced in the reader
functions below. -/
structure Opts where
  root : Option String := none
  index : Option String := none
  maxage : Option Int := none
  maxAge : Option Int := none
  immutable : Option Bool := none
  hidden : Option Bool := none
  format : Option Bool := none
  extensions : Option (List ExtEntry) := none
  brotli : Option Bool := none
  gzip : Option Bool := none
  setHeaders : SetHeadersOpt := .noHook

/-! ## Path helpers (Node `path` module, posix flavour) -/

/-- Split a character list at `/` separators, like `String.prototype.split`
with separator `path.sep`: `splitSlash ""` is `[""]`, and separators at the
ends produce empty segments. -/
def splitSlash : List Char → List (List Char)
  | [] => [[]]
  | '/' :: t => [] :: splitSlash t
  | c :: t =>
    match splitSlash t with
    | h :: r => (c :: h) :: r
    | [] => [[c]]

/-- Join segments with `/` separators (inverse direction of `splitSlash`). -/
def joinSegs : List (List Char) → List Char
  | [] => []
  | [s] => s
  | s :: rest => s ++ ('/') :: joinSegs rest

/-- Node `path.posix.basename`: strip trailing separators, then keep the part
after the last separator. -/
def basename (s : String) : String :=
  ⟨((s.data.reverse.dropWhile (fun c => c = '/')).takeWhile (fun c => c ≠ '/')).reverse⟩

/-- Does the string contain a dot?  Models the `/\./.exec(...)` test of the
extension-fallback guard. -/
def hasDot (s : String) : Bool := s.data.any (fun c => c = '.')

/-- Node `path.posix.extname`: the suffix of the basename starting at its
last dot; empty when the basename has no dot, when the only dot is its first
character, or when the basename consists of dots only (the `.`/`..` special
cases of Node's scanner). -/
def extname (s : String) : String :=
  let b := (basename s).data
  let after := b.reverse.takeWhile (fun c => c ≠ '.')
  if after.length = b.length then ""
  else if after.length + 1 = b.length ∧ b.head? = some ('.') then ""
  else if b.all (fun c => c = '.') then ""
  else ⟨('.') :: after.reverse⟩

/-- Node `path.posix.basename(file, ext)`: additionally strips the suffix
`ext` when the basename ends with it and is not equal to it. -/
def basenameExt (file ext : String) : String :=
  let b := basename file
  if b ≠ ext ∧ ext.data ≠ [] ∧ b.data.reverse.take ext.data.length = ext.data.reverse
  then ⟨(b.data.reverse.drop ext.data.length).reverse⟩ else b

/-- The `type` helper of the source: the extension the content type is
derived from; when an encoding suffix was applied the suffix is stripped
first, so the type reflects the underlying file, not `.br`/`.gz`. -/
def type (file ext : String) : String :=
  if ext ≠ "" then extname (basenameExt file ext) else extname file

/-- The `path.substr(parse(path).root.length)` step: on posix, `parse(p).root`
is `"/"` exactly when `p` is absolute, so this strips one leading slash. -/
def stripParseRoot (s : String) : String :=
  if s.data.head? = some ('/') then ⟨s.data.tail⟩ else s

/-- The `path[path.length - 1] === '/'` test (`trailingSlash`). -/
def lastIsSlash (s : String) : Bool := s.data.getLast? = some ('/')

/-! ## Percent decoding (`decodeURIComponent`)

The source's `decode` helper wraps `decodeURIComponent`, returning a sentinel
on `URIError`.  The ECMAScript algorithm is modelled in two phases: first
every `%XY` pair is replaced by its byte while literal characters stay
characters (a `%` not followed by two hex digits is malformed); then maximal
byte runs are recombined by a strict UTF-8 decoder (stray or missing
continuation bytes, overlong forms, surrogate code points and values above
`0x10FFFF` are malformed). -/

/-- Value of a hexadecimal digit character, or `none`. -/
def hexVal (c : Char) : Option Nat :=
  if 0x30 ≤ c.toNat ∧ c.toNat ≤ 0x39 then some (c.toNat - 0x30)
  else if 0x61 ≤ c.toNat ∧ c.toNat ≤ 0x66 then some (c.toNat - 0x61 + 10)
  else if 0x41 ≤ c.toNat ∧ c.toNat ≤ 0x46 then some (c.toNat - 0x41 + 10)
  else none

/-- Phase one: turn `%XY` escapes into bytes (`Sum.inl`) and leave literal
characters (`Sum.inr`); `none` on a malformed escape. -/
def pctTokens : List Char → Option (List (Sum Nat Char))
  | [] => some []
  | c :: t =>
    if c = '%' then
      match t with
      | h1 :: h2 :: t2 =>
        match hexVal h1, hexVal h2 with
        | some a, some b => (pctTokens t2).map (fun r => Sum.inl (16 * a + b) :: r)
        | _, _ => none
      | _ => none
    else (pctTokens t).map (fun r => Sum.inr c :: r)

/-- Scalar value assembled from a two-byte UTF-8 sequence. -/
def cp2 (B C1 : Nat) : Nat := (B - 0xC0) * 64 + (C1 - 0x80)

/-- Scalar value assembled from a three-byte UTF-8 sequence. -/
def cp3 (B C1 C2 : Nat) : Nat := (B - 0xE0) * 4096 + (C1 - 0x80) * 64 + (C2 - 0x80)

/-- Scalar value assembled from a four-byte UTF-8 sequence. -/
def cp4 (B C1 C2 C3 : Nat) : Nat :=
  (B - 0xF0) * 262144 + (C1 - 0x80) * 4096 + (C2 - 0x80) * 64 + (C3 - 0x80)

/-- Phase two: strict UTF-8 recombination of the escape bytes.  Literal
characters pass through; a byte below `0x80` stands alone; a lead byte must
be followed by exactly the right number of continuation *bytes* (a literal
character never continues a sequence, and a byte in `0x80–0xBF` outside a
sequence, an overlong or out-of-range value, or a surrogate code point is
malformed).  The equations enumerate the shapes of the first four tokens so
that every arm is a flat conditional: a lead byte requiring more
continuation bytes than the shape provides falls into that arm's final
`none`. -/
def utf8Recombine : List (Sum Nat Char) → Option (List Char)
  | [] => some []
  | .inr c :: t => (utf8Recombine t).map (fun r => c :: r)
  | [ .inl B ] =>
    if B < 0x80 then (utf8Recombine []).map (fun r => Char.ofNat B :: r)
    else none
  | .inl B :: .inr c :: t =>
    if B < 0x80 then (utf8Recombine (.inr c :: t)).map (fun r => Char.ofNat B :: r)
    else none
  | .inl B :: [ .inl C1 ] =>
    if B < 0x80 then (utf8Recombine [ .inl C1 ]).map (fun r => Char.ofNat B :: r)
    else if B < 0xC0 then none
    else if B < 0xE0 then
      if (0x80 ≤ C1 ∧ C1 < 0xC0) ∧ 0x80 ≤ cp2 B C1 then
        (utf8Recombine []).map (fun r => Char.ofNat (cp2 B C1) :: r)
      else none
    else none
  | .inl B :: .inl C1 :: .inr c :: t =>
    if B < 0x80 then (utf8Recombine (.inl C1 :: .inr c :: t)).map (fun r => Char.ofNat B :: r)
    else if B < 0xC0 then none
    else if B < 0xE0 then
      if (0x80 ≤ C1 ∧ C1 < 0xC0) ∧ 0x80 ≤ cp2 B C1 then
        (utf8Recombine (.inr c :: t)).map (fun r => Char.ofNat (cp2 B C1) :: r)
      else none
    else none
  | .inl B :: .inl C1 :: [ .inl C2 ] =>
    if B < 0x80 then (utf8Recombine [ .inl C1, .inl C2 ]).map (fun r => Char.ofNat B :: r)
    else if B < 0xC0 then none
    else if B < 0xE0 then
      if (0x80 ≤ C1 ∧ C1 < 0xC0) ∧ 0x80 ≤ cp2 B C1 then
        (utf8Recombine [ .inl C2 ]).map (fun r => Char.ofNat (cp2 B C1) :: r)
      else none
    else if B < 0xF0 then
      if ((0x80 ≤ C1 ∧ C1 < 0xC0) ∧ (0x80 ≤ C2 ∧ C2 < 0xC0)) ∧
          (0x800 ≤ cp3 B C1 C2 ∧ ¬ (0xD800 ≤ cp3 B C1 C2 ∧ cp3 B C1 C2 < 0xE000)) then
        (utf8Recombine []).map (fun r => Char.ofNat (cp3 B C1 C2) :: r)
      else none
    else none
  | .inl B :: .inl C1 :: .inl C2 :: .inr c :: t =>
    if B < 0x80 then
      (utf8Recombine (.inl C1 :: .inl C2 :: .inr c :: t)).map (fun r => Char.ofNat B :: r)
    else if B < 0xC0 then none
    else if B < 0xE0 then
      if (0x80 ≤ C1 ∧ C1 < 0xC0) ∧ 0x80 ≤ cp2 B C1 then
        (utf8Recombine (.inl C2 :: .inr c :: t)).map (fun r => Char.ofNat (cp2 B C1) :: r)
      else none
    else if B < 0xF0 then
      if ((0x80 ≤ C1 ∧ C1 < 0xC0) ∧ (0x80 ≤ C2 ∧ C2 < 0xC0)) ∧
          (0x800 ≤ cp3 B C1 C2 ∧ ¬ (0xD800 ≤ cp3 B C1 C2 ∧ cp3 B C1 C2 < 0xE000)) then
        (utf8Recombine (.inr c :: t)).map (fun r => Char.ofNat (cp3 B C1 C2) :: r)
      else none
    else none
  | .inl B :: .inl C1 :: .inl C2 :: .inl C3 :: t =>
    if B < 0x80 then
      (utf8Recombine (.inl C1 :: .inl C2 :: .inl C3 :: t)).map (fun r => Char.ofNat B :: r)
    else if B < 0xC0 then none
    else if B < 0xE0 then
      if (0x80 ≤ C1 ∧ C1 < 0xC0) ∧ 0x80 ≤ cp2 B C1 then
        (utf8Recombine (.inl C2 :: .inl C3 :: t)).map (fun r => Char.ofNat (cp2 B C1) :: r)
      else none
    else if B < 0xF0 then
      if ((0x80 ≤ C1 ∧ C1 < 0xC0) ∧ (0x80 ≤ C2 ∧ C2 < 0xC0)) ∧
          (0x800 ≤ cp3 B C1 C2 ∧ ¬ (0xD800 ≤ cp3 B C1 C2 ∧ cp3 B C1 C2 < 0xE000)) then
        (utf8Recombine (.inl C3 :: t)).map (fun r => Char.ofNat (cp3 B C1 C2) :: r)
      else none
    else if B < 0xF8 then
      if ((0x80 ≤ C1 ∧ C1 < 0xC0) ∧ (0x80 ≤ C2 ∧ C2 < 0xC0) ∧ (0x80 ≤ C3 ∧ C3 < 0xC0)) ∧
          (0x10000 ≤ cp4 B C1 C2 C3 ∧ cp4 B C1 C2 C3 ≤ 0x10FFFF) then
        (utf8Recombine t).map (fun r => Char.ofNat (cp4 B C1 C2 C3) :: r)
      else none
    else none

/-- The `decode` helper of the source: `decodeURIComponent`, with the
`URIError` sentinel modelled as `none`. -/
def decode (s : String) : Option String :=
  match pctTokens s.data with
  | none => none
  | some ts =>
    match utf8Recombine ts with
    | none => none
    | some l => some ⟨l⟩

/-! ## Percent encoding

Modelled from the spec: the round-trip property of §8 speaks of
"percent-encoding a path", with the proviso that literal malformed escape
sequences must still fail in the encoded representation.  The encoder is
therefore one that leaves `%` (and every other printable ASCII character)
unchanged — so existing escape sequences, well- or mal-formed, are preserved
verbatim — and escapes all other characters as the `%XY` form of their UTF-8
bytes.  This definition lives on the specification side; it has no
counterpart in `src/`.  -/

/-- Characters the encoder leaves unchanged: printable ASCII (this includes
`%`, `/` and all hexadecimal digits). -/
def isKept (c : Char) : Bool := decide (0x20 < c.toNat ∧ c.toNat < 0x7F)

/-- Uppercase hexadecimal digit character of a value below 16. -/
def hexDigitChar (n : Nat) : Char :=
  if n < 10 then Char.ofNat (0x30 + n) else Char.ofNat (0x41 + n - 10)

/-- The three-character escape `%XY` of one byte. -/
def escByte (b : Nat) : List Char := [ '%', hexDigitChar (b / 16), hexDigitChar (b % 16) ]

/-- UTF-8 bytes of a scalar value. -/
def utf8Bytes (v : Nat) : List Nat :=
  if v < 0x80 then [v]
  else if v < 0x800 then [0xC0 + v / 64, 0x80 + v % 64]
  else if v < 0x10000 then [0xE0 + v / 4096, 0x80 + v / 64 % 64, 0x80 + v % 64]
  else [0xF0 + v / 262144, 0x80 + v / 4096 % 64, 0x80 + v / 64 % 64, 0x80 + v % 64]

/-- Encoding of a single character: kept verbatim, or escaped bytewise. -/
def encChar (c : Char) : List Char :=
  if isKept c then [c] else ((utf8Bytes c.toNat).map escByte).flatten

/-- Encoding of a character list. -/
def encodeList (l : List Char) : List Char := (l.map encChar).flatten

/-- Modelled from the spec: percent-encoding of a path (see above). -/
def percentEncode (s : String) : String := ⟨encodeList s.data⟩

/-! ## Option readers (the truthiness coercions of lines 67–88) -/

/-- `opts.index` with string truthiness: the empty string behaves like an
absent index. -/
def indexVal (o : Opts) : String := (o.index).getD ""

/-- `opts.maxage || opts.maxAge || 0` on integer values (`0` is the only
falsy integer). -/
def maxageVal (o : Opts) : Int :=
  let a := (o.maxage).getD 0
  if a ≠ 0 then a else
    let b := (o.maxAge).getD 0
    if b ≠ 0 then b else 0

/-- `opts.immutable || false`. -/
def immutableOf (o : Opts) : Bool := (o.immutable).getD false

/-- `opts.hidden || false`. -/
def hiddenOf (o : Opts) : Bool := (o.hidden).getD false

/-- `opts.format !== false`. -/
def formatOf (o : Opts) : Bool := !(o.format == some false)

/-- `opts.brotli !== false`. -/
def brotliOf (o : Opts) : Bool := !(o.brotli == some false)

/-- `opts.gzip !== false`. -/
def gzipOf (o : Opts) : Bool := !(o.gzip == some false)

/-- Segment normalization used for the root: `.` and empty segments vanish,
`..` pops (clamped at the root, as `path.resolve` clamps absolute paths). -/
def rootNormStack (acc : List (List Char)) : List (List Char) → List (List Char)
  | [] => acc.reverse
  | seg :: rest =>
    if seg = [] ∨ seg = [ '.' ] then rootNormStack acc rest
    else if seg = [ '.', '.' ] then rootNormStack acc.tail rest
    else rootNormStack (seg :: acc) rest

/-- `opts.root ? normalize(resolve(opts.root)) : ''`.  `path.resolve` against
the working directory is not modelled: the root option is taken as an
absolute path and segment-normalized (`.`, `..`, empty segments), which is
what `normalize(resolve(r))` computes for absolute `r`. -/
def rootVal (o : Opts) : String :=
  match o.root with
  | some r =>
    if r = "" then ""
    else ⟨('/') :: joinSegs (rootNormStack [] (splitSlash r.data))⟩
  | none => ""

/-! ## The containment-safe join and the hidden-file test -/

/-- Resolve `.` and `..` against a stack of segments, `none` when a `..`
would pop past the start (i.e. the path escapes upward). -/
def containSegs (acc : List (List Char)) : List (List Char) → Option (List (List Char))
  | [] => some acc.reverse
  | seg :: rest =>
    if seg = [] ∨ seg = [ '.' ] then containSegs acc rest
    else if seg = [ '.', '.' ] then
      match acc with
      | [] => none
      | _ :: tl => containSegs tl rest
    else containSegs (seg :: acc) rest

/-- Modelled from the spec: the containment-safe join performed by the
external `resolve-path` dependency (its source is not part of this
repository).  Per §4.1/§7 of the spec, joining the decoded path onto the
root fails — as an error propagated from the join — when the path would
resolve outside the root: an absolute path overrides the root
(`malicious`), and excess `..` segments escape it (`containment`);
otherwise the normalized path is joined under the root. -/
def resolvePath (root p : String) : Except SendError String :=
  if p.data.head? = some ('/') then .error .malicious
  else
    match containSegs [] (splitSlash p.data) with
    | none => .error .containment
    | some segs => .ok ⟨root.data ++ ('/') :: joinSegs segs⟩

/-- The `isHidden` helper of the source: split the part of `path` after
`root` at separators and test whether any segment starts with a dot. -/
def isHidden (root path : String) : Bool :=
  (splitSlash (path.data.drop root.length)).any (fun seg => seg.head? = some ('.'))

/-! ## Response headers (koa `ctx.set` / `ctx.response.get` / `removeHeader`) -/

/-- ASCII lowercasing of a header name (koa header names are
case-insensitive). -/
def lowerKey (s : String) : String :=
  ⟨s.data.map (fun c => if 0x41 ≤ c.toNat ∧ c.toNat ≤ 0x5A then Char.ofNat (c.toNat + 0x20) else c)⟩

/-- `ctx.response.get(name)`: the empty string when the header is absent
(which is also what koa's falsiness tests treat as absent). -/
def getHeader (c : Ctx) (n : String) : String :=
  ((c.headers.lookup (lowerKey n)).getD "")

/-- `ctx.set(name, value)`. -/
def setHeader (c : Ctx) (n v : String) : Ctx :=
  { c with headers := (lowerKey n, v) :: c.headers.filter (fun kv => !(kv.1 == lowerKey n)) }

/-- `ctx.res.removeHeader(name)`. -/
def removeHeader (c : Ctx) (n : String) : Ctx :=
  { c with headers := c.headers.filter (fun kv => !(kv.1 == lowerKey n)) }

/-! ## Pipeline stages -/

/-- Output of the precompressed-variant negotiation (lines 113–125). -/
structure EncOut where
  ctx : Ctx
  path : String
  encExt : String
  ops : List FsOp
deriving DecidableEq, Repr

/-- Prefix some already-performed probes onto a stage output. -/
def prependOps (pre : List FsOp) (e : EncOut) : EncOut :=
  { e with ops := pre ++ e.ops }

/-- The gzip half of the negotiation (the `else if` branch). -/
def gzipPart (fs : FileSys) (ctx : Ctx) (gzip : Bool) (path : String) : EncOut :=
  if ctx.acceptGzip = true ∧ gzip = true then
    if fs.access (path ++ ".gz") then
      { ctx := removeHeader (setHeader ctx ("Content-Encoding") ("gzip")) ("Content-Length"),
        path := path ++ ".gz", encExt := ".gz", ops := [.access (path ++ ".gz")] }
    else { ctx := ctx, path := path, encExt := "", ops := [.access (path ++ ".gz")] }
  else { ctx := ctx, path := path, encExt := "", ops := [] }

/-- Lines 113–125: serve the brotli sibling when the client accepts `br`,
the option allows it and `path + '.br'` exists; otherwise the gzip sibling
under the analogous conditions.  The `&&` short-circuit is preserved: the
existence probe only happens when the first two conjuncts hold, and the gzip
branch is not evaluated at all once brotli matched. -/
def encodingStage (fs : FileSys) (ctx : Ctx) (brotli gzip : Bool) (path : String) : EncOut :=
  if ctx.acceptBr = true ∧ brotli = true then
    if fs.access (path ++ ".br") then
      { ctx := removeHeader (setHeader ctx ("Content-Encoding") ("br")) ("Content-Length"),
        path := path ++ ".br", encExt := ".br", ops := [.access (path ++ ".br")] }
    else prependOps [.access (path ++ ".br")] (gzipPart fs ctx gzip path)
  else gzipPart fs ctx gzip path

/-- Normalize an extension candidate to begin with a dot
(the `if (!/^\./.exec(ext)) ext = '.' + ext` line). -/
def normExt (s : String) : String :=
  if s.data.head? = some ('.') then s else ⟨('.') :: s.data⟩

/-- The candidate loop of lines 128–140: in order, a non-string entry throws
a `TypeError`; otherwise the candidate is probed and, on the first hit, the
path is rewritten and the loop stops.  Returns the probes performed together
with the result. -/
def extLoop (fs : FileSys) (path : String) : List ExtEntry → List FsOp × Except String String
  | [] => ([], .ok path)
  | .nonString :: _ => ([], .error ("option extensions must be array of strings or false"))
  | .str e :: rest =>
    if fs.access (path ++ normExt e) then
      ([.access (path ++ normExt e)], .ok (path ++ normExt e))
    else
      match extLoop fs path rest with
      | (ops, r) => (.access (path ++ normExt e) :: ops, r)

/-- Line 127's guard plus the loop: the fallback only runs when the
`extensions` option is an array (possibly empty — an empty array is truthy)
and the basename of the current path contains no dot. -/
def extStage (fs : FileSys) (exts : Option (List ExtEntry)) (path : String) :
    List FsOp × Except String String :=
  match exts with
  | none => ([], .ok path)
  | some list =>
    if hasDot (basename path) then ([], .ok path) else extLoop fs path list

/-- The `notfound` error-code list of line 161. -/
def notfoundCodes : List String := [("ENOENT"), ("ENAMETOOLONG"), ("ENOTDIR")]

/-- Lines 160–167: a stat error whose code is in the not-found list becomes
`createError(404, err)` wrapping the cause; any other stat error is
re-thrown with `err.status = 500`. -/
def classifyStatErr (e : StatErr) : SendError :=
  if notfoundCodes.contains e.code then .notFound e else .serverError e

/-- Result of the stat block: either the pipeline halts (throw or bare
`return` for a directory without index support) or it proceeds with the
final path and stats. -/
inductive StatRes where
  | halt (o : SendOutcome)
  | good (path : String) (st : Stats)
deriving Repr

/-- Lines 143–167: stat the candidate; if it is a directory and both
`format` and `index` are set, append `/index` and re-stat, otherwise return
(not applicable).  Errors from either stat are classified by
`classifyStatErr`. -/
def statStage (fs : FileSys) (format : Bool) (index : String) (path : String) :
    List FsOp × StatRes :=
  match fs.stat path with
  | .error e => ([.statOp path], .halt (.thrown (classifyStatErr e)))
  | .ok st =>
    if st.isDir then
      if format = true ∧ index ≠ "" then
        match fs.stat (path ++ ("/") ++ index) with
        | .error e =>
          ([.statOp path, .statOp (path ++ ("/") ++ index)], .halt (.thrown (classifyStatErr e)))
        | .ok st2 =>
          ([.statOp path, .statOp (path ++ ("/") ++ index)], .good (path ++ ("/") ++ index) st2)
      else ([.statOp path], .halt .notApplicable)
    else ([.statOp path], .good path st)

/-- The 32-bit signed truncation performed by JavaScript's `| 0`. -/
def toInt32 (n : Int) : Int := (n + 2 ^ 31) % 2 ^ 32 - 2 ^ 31

/-- `Array.prototype.join(',')` on the directive list. -/
def joinComma : List String → String
  | [] => ""
  | [x] => x
  | x :: rest => x ++ (",") ++ joinComma rest

/-- The `Cache-Control` value of lines 175–180: `max-age=` followed by
`maxage / 1000 | 0`, with `immutable` pushed onto the directive list when
configured, joined with commas. -/
def cacheControlValue (o : Opts) : String :=
  joinComma
    (("max-age=" ++ toString (toInt32 (Int.tdiv (maxageVal o) 1000))) ::
      (if immutableOf o then [("immutable")] else []))

/-- The `if (setHeaders) setHeaders(ctx.res, path, stats)` call of line 169.
The `notFunction` case is unreachable here: it was rejected at entry. -/
def applyHook : SetHeadersOpt → Ctx → String → Stats → Ctx
  | .noHook, c, _, _ => c
  | .fn f, c, p, st => f c p st
  | .notFunction, c, _, _ => c

/-- Line 173: set `Last-Modified` from the stats only when not already
present (koa's `get` returns the empty string for an absent header). -/
def hsLastMod (c : Ctx) (st : Stats) : Ctx :=
  if getHeader c ("Last-Modified") = "" then setHeader c ("Last-Modified") st.mtimeUTC else c

/-- Lines 174–181: set `Cache-Control` only when not already present. -/
def hsCache (c : Ctx) (o : Opts) : Ctx :=
  if getHeader c ("Cache-Control") = "" then setHeader c ("Cache-Control") (cacheControlValue o)
  else c

/-- Lines 182–184: set the content type only when the caller has not fixed
it, and attach the stream handle for the final path as the body. -/
def hsFinal (c : Ctx) (path encExt : String) : Ctx :=
  { (if c.ctype = "" then { c with ctype := type path encExt } else c) with body := some path }

/-- Lines 172–184: always set `Content-Length` from the stats; set
`Last-Modified` and `Cache-Control` only when not already present; set the
content type only when the caller has not fixed it; attach the stream
handle for the final path as the body. -/
def headerStage (c : Ctx) (o : Opts) (path : String) (st : Stats) (encExt : String) : Ctx :=
  hsFinal (hsCache (hsLastMod (setHeader c ("Content-Length") (toString st.size)) st) o) path
    encExt

/-- The pipeline from the encoding negotiation onward (everything after the
hidden-file check passes): negotiation, extension fallback, stat with
directory-index retry, hook, headers, body. -/
def restPipeline (fs : FileSys) (ctx : Ctx) (o : Opts) (path : String) : SendResult :=
  let e := encodingStage fs ctx (brotliOf o) (gzipOf o) path
  match extStage fs o.extensions e.path with
  | (ops2, .error m) => ⟨.thrown (.configError m), e.ctx, e.encExt, e.ops ++ ops2⟩
  | (ops2, .ok p2) =>
    match statStage fs (formatOf o) (indexVal o) p2 with
    | (ops3, .halt out) => ⟨out, e.ctx, e.encExt, e.ops ++ (ops2 ++ ops3)⟩
    | (ops3, .good p3 st) =>
      ⟨.resolved p3, headerStage (applyHook o.setHeaders e.ctx p3 st) o p3 st e.encExt,
        e.encExt, e.ops ++ (ops2 ++ ops3)⟩

/-- Line 104: when an index is configured and the request had a trailing
slash, the index name is appended to the decoded path. -/
def withIndex (o : Opts) (trailing : Bool) (dec : String) : String :=
  if indexVal o ≠ "" ∧ trailing = true then dec ++ indexVal o else dec

/-- The body of `send` after the trailing-slash test, the root strip and the
decode: the 400 on decode failure, the index append, the containment-safe
join, the hidden-file check, then the rest of the pipeline. -/
def sendCore (fs : FileSys) (ctx : Ctx) (o : Opts) (trailing : Bool) (dec : Option String) :
    SendResult :=
  match dec with
  | none => ⟨.thrown (.badRequest ("failed to decode")), ctx, "", []⟩
  | some d =>
    match resolvePath (rootVal o) (withIndex o trailing d) with
    | .error e => ⟨.thrown e, ctx, "", []⟩
    | .ok p =>
      if hiddenOf o = false ∧ isHidden (rootVal o) p = true then ⟨.notApplicable, ctx, "", []⟩
      else restPipeline fs ctx o p

/-- The `send` function of `src/index.js`.  The entry assertion on the
path, the `setHeaders` type check (which precedes everything else, including
the decode), then `sendCore`.  The assertion on the context itself is
vacuous in the model (a `Ctx` is always supplied). -/
def send (fs : FileSys) (ctx : Ctx) (path : String) (o : Opts) : SendResult :=
  if path = "" then ⟨.thrown (.assertFail ("pathname required")), ctx, "", []⟩
  else
    match o.setHeaders with
    | .notFunction =>
      ⟨.thrown (.configError ("option setHeaders must be function")), ctx, "", []⟩
    | _ => sendCore fs ctx o (lastIsSlash path) (decode (stripParseRoot path))

/-! ## Witness fixtures: concrete filesystems, contexts and options -/

/-- A filesystem with no files at all. -/
def fsEmpty : FileSys := ⟨fun _ => false, fun _ => .error ⟨("ENOENT")⟩⟩

/-- A filesystem whose every stat fails with a permissions error. -/
def fsEacces : FileSys := ⟨fun _ => false, fun _ => .error ⟨("EACCES")⟩⟩

/-- A filesystem with a single regular file at `/r/a`. -/
def fsOneFile : FileSys :=
  ⟨fun _ => false, fun p => if p = "/r/a" then .ok ⟨false, 5, ("mt")⟩ else .error ⟨("ENOENT")⟩⟩

/-- A filesystem where both `/r/a.br` and `/r/a.gz` exist. -/
def fsBrGz : FileSys :=
  ⟨fun p => p == "/r/a.br" || p == "/r/a.gz", fun _ => .error ⟨("ENOENT")⟩⟩

/-- A context accepting neither brotli nor gzip, with no pre-set headers. -/
def ctxBase : Ctx := ⟨false, false, [], "", none⟩

/-- A context accepting both brotli and gzip. -/
def ctxBoth : Ctx := ⟨true, true, [], "", none⟩

/-- A context with a caller-provided `Cache-Control` header. -/
def ctxPreset : Ctx := ⟨false, false, [(("cache-control"), ("private"))], "", none⟩

/-- Expansion of one phase-one token under `percentEncode`: a byte token is
untouched; a kept literal stays literal; an escaped literal becomes the byte
tokens of its UTF-8 encoding.  (Used to relate the tokenization of an
encoded string to the tokenization of the original.) -/
def tokExpand : Sum Nat Char → List (Sum Nat Char)
  | .inl b => [.inl b]
  | .inr c => if isKept c then [.inr c] else (utf8Bytes c.toNat).map Sum.inl

/-! ## Basic lemmas -/

theorem char_ne_of_toNat_ne {a b : Char} (h : a.toNat ≠ b.toNat) : a ≠ b :=
  fun he => h (congrArg Char.toNat he)

theorem char_toNat_ofNat (n : Nat) (h : n.isValidChar) : (Char.ofNat n).toNat = n := by
  unfold Char.ofNat
  rw [dif_pos h]
  rfl

theorem string_data_append (a b : String) : (a ++ b).data = a.data ++ b.data := rfl

theorem string_append_right_ne (p : String) {a b : String} (h : a ≠ b) : p ++ a ≠ p ++ b := by
  intro he
  apply h
  have h2 : p.data ++ a.data = p.data ++ b.data := congrArg String.data he
  have h3 : a.data = b.data := List.append_cancel_left h2
  cases a
  cases b
  simp only at h3
  rw [h3]

/-! ## Header-table lemmas -/

theorem lookup_filter_ne (l : List (String × String)) (a b : String) (h : a ≠ b) :
    (l.filter (fun kv => !(kv.1 == a))).lookup b = l.lookup b := by
  induction l with
  | nil => rfl
  | cons kv t ih =>
    by_cases hk : kv.1 = a
    · have hb : (b == kv.1) = false := by
        simp only [beq_eq_false_iff_ne, ne_eq, hk]
        exact fun e => h e.symm
      rw [List.filter_cons, if_neg (by simp [hk])]
      rw [ih]
      simp only [List.lookup, hb]
    · rw [List.filter_cons, if_pos (by simp [hk])]
      simp only [List.lookup]
      cases hkb : b == kv.1
      · exact ih
      · rfl

theorem getHeader_set_same (c : Ctx) (k v : String) : getHeader (setHeader c k v) k = v := by
  simp [getHeader, setHeader, List.lookup]

theorem getHeader_set_ne (c : Ctx) (k k2 v : String) (h : lowerKey k ≠ lowerKey k2) :
    getHeader (setHeader c k v) k2 = getHeader c k2 := by
  have hb : (lowerKey k2 == lowerKey k) = false := by
    simp only [beq_eq_false_iff_ne, ne_eq]
    exact fun e => h e.symm
  simp only [getHeader, setHeader, List.lookup, hb]
  rw [lookup_filter_ne _ _ _ h]

theorem getHeader_remove_ne (c : Ctx) (k k2 : String) (h : lowerKey k ≠ lowerKey k2) :
    getHeader (removeHeader c k) k2 = getHeader c k2 := by
  simp only [getHeader, removeHeader]
  rw [lookup_filter_ne _ _ _ h]

/-! ## Stage-evaluation lemmas -/

theorem encodingStage_skip (fs : FileSys) (ctx : Ctx) (brotli gzip : Bool) (path : String)
    (h1 : ctx.acceptBr = false) (h2 : ctx.acceptGzip = false) :
    encodingStage fs ctx brotli gzip path = ⟨ctx, path, "", []⟩ := by
  unfold encodingStage gzipPart
  rw [if_neg (by simp [h1]), if_neg (by simp [h2])]

theorem encodingStage_br (fs : FileSys) (ctx : Ctx) (brotli gzip : Bool) (path : String)
    (h1 : ctx.acceptBr = true) (hb : brotli = true) (hf : fs.access (path ++ ".br") = true) :
    encodingStage fs ctx brotli gzip path =
      ⟨removeHeader (setHeader ctx ("Content-Encoding") ("br")) ("Content-Length"),
        path ++ ".br", ".br", [.access (path ++ ".br")]⟩ := by
  unfold encodingStage
  rw [if_pos ⟨h1, hb⟩, if_pos hf]

theorem encodingStage_headers_cc (fs : FileSys) (ctx : Ctx) (brotli gzip : Bool) (path : String) :
    getHeader (encodingStage fs ctx brotli gzip path).ctx ("Cache-Control")
      = getHeader ctx ("Cache-Control") := by
  unfold encodingStage gzipPart
  split
  · split
    · rw [getHeader_remove_ne _ _ _ (by decide), getHeader_set_ne _ _ _ _ (by decide)]
    · unfold prependOps
      split
      · split
        · rw [getHeader_remove_ne _ _ _ (by decide), getHeader_set_ne _ _ _ _ (by decide)]
        · rfl
      · rfl
  · split
    · split
      · rw [getHeader_remove_ne _ _ _ (by decide), getHeader_set_ne _ _ _ _ (by decide)]
      · rfl
    · rfl

theorem extStage_skip_dot (fs : FileSys) (exts : Option (List ExtEntry)) (path : String)
    (h : hasDot (basename path) = true) : extStage fs exts path = ([], .ok path) := by
  cases exts with
  | none => rfl
  | some list =>
    show (if hasDot (basename path) = true then (([], .ok path) : List FsOp × Except String String)
      else extLoop fs path list) = ([], .ok path)
    rw [if_pos h]

theorem extLoop_nonstring (fs : FileSys) (path : String) (post : List ExtEntry)
    (pre : List String) (h : ∀ s ∈ pre, fs.access (path ++ normExt s) = false) :
    extLoop fs path (pre.map ExtEntry.str ++ ExtEntry.nonString :: post)
      = (pre.map (fun s => FsOp.access (path ++ normExt s)),
          .error ("option extensions must be array of strings or false")) := by
  induction pre with
  | nil => rfl
  | cons s t ih =>
    have hs : fs.access (path ++ normExt s) = false := h s (List.mem_cons_self s t)
    simp only [List.map_cons, List.cons_append]
    unfold extLoop
    rw [if_neg (by simp [hs])]
    rw [ih (fun x hx => h x (List.mem_cons_of_mem s hx))]

theorem statStage_ops_shape (fs : FileSys) (f : Bool) (i p : String) :
    ∃ rest, (statStage fs f i p).1 = FsOp.statOp p :: rest ∧
      ∀ op ∈ rest, ∃ q, op = FsOp.statOp q := by
  unfold statStage
  split
  · exact ⟨[], rfl, by simp⟩
  · split
    · split
      · split
        · refine ⟨[FsOp.statOp (p ++ ("/") ++ i)], rfl, ?_⟩
          intro op hop
          rw [List.mem_singleton] at hop
          exact ⟨_, hop⟩
        · refine ⟨[FsOp.statOp (p ++ ("/") ++ i)], rfl, ?_⟩
          intro op hop
          rw [List.mem_singleton] at hop
          exact ⟨_, hop⟩
      · exact ⟨[], rfl, by simp⟩
    · exact ⟨[], rfl, by simp⟩

theorem statStage_error (fs : FileSys) (f : Bool) (i p : String) (e : StatErr)
    (h : fs.stat p = .error e) :
    statStage fs f i p = ([FsOp.statOp p], .halt (.thrown (classifyStatErr e))) := by
  unfold statStage
  rw [h]

theorem statStage_file (fs : FileSys) (f : Bool) (i p : String) (st : Stats)
    (h : fs.stat p = .ok st) (hd : st.isDir = false) :
    statStage fs f i p = ([FsOp.statOp p], .good p st) := by
  unfold statStage
  rw [h]
  simp [hd]

theorem hasDot_basename_br (p : String) : hasDot (basename (p ++ ".br")) = true := by
  have hd : (p ++ ".br").data = p.data ++ [ '.', 'b', 'r' ] := rfl
  unfold basename hasDot
  dsimp only
  rw [hd, List.reverse_append]
  have hrev : ([ '.', 'b', 'r' ] : List Char).reverse = [ 'r', 'b', '.' ] := rfl
  rw [hrev]
  simp only [List.cons_append, List.nil_append]
  rw [List.dropWhile_cons, if_neg (by decide)]
  rw [List.takeWhile_cons, if_pos (by decide), List.takeWhile_cons, if_pos (by decide),
    List.takeWhile_cons, if_pos (by decide)]
  rw [List.any_eq_true]
  refine ⟨ '.', ?_, by decide⟩
  rw [List.mem_reverse]
  simp

/-! ## Reaching the pipeline -/

theorem send_eval (fs : FileSys) (ctx : Ctx) (o : Opts) (raw : String)
    (hne : raw ≠ "") (hs : o.setHeaders ≠ .notFunction) :
    send fs ctx raw o = sendCore fs ctx o (lastIsSlash raw) (decode (stripParseRoot raw)) := by
  unfold send
  rw [if_neg hne]
  cases hsh : o.setHeaders with
  | noHook => rfl
  | fn f => rfl
  | notFunction => exact absurd hsh hs

theorem send_reaches_rest (fs : FileSys) (ctx : Ctx) (o : Opts) (raw d p : String)
    (hne : raw ≠ "") (hs : o.setHeaders ≠ .notFunction)
    (hd : decode (stripParseRoot raw) = some d)
    (hr : resolvePath (rootVal o) (withIndex o (lastIsSlash raw) d) = .ok p)
    (hpass : hiddenOf o = true ∨ isHidden (rootVal o) p = false) :
    send fs ctx raw o = restPipeline fs ctx o p := by
  rw [send_eval fs ctx o raw hne hs, hd]
  show (match resolvePath (rootVal o) (withIndex o (lastIsSlash raw) d) with
    | .error e => (⟨.thrown e, ctx, "", []⟩ : SendResult)
    | .ok p =>
      if hiddenOf o = false ∧ isHidden (rootVal o) p = true then ⟨.notApplicable, ctx, "", []⟩
      else restPipeline fs ctx o p) = restPipeline fs ctx o p
  rw [hr]
  have hnp : ¬ (hiddenOf o = false ∧ isHidden (rootVal o) p = true) := by
    rcases hpass with h | h <;> simp [h]
  show (if hiddenOf o = false ∧ isHidden (rootVal o) p = true then
      (⟨.notApplicable, ctx, "", []⟩ : SendResult) else restPipeline fs ctx o p)
    = restPipeline fs ctx o p
  rw [if_neg hnp]

theorem sendCore_some (fs : FileSys) (ctx : Ctx) (o : Opts) (trailing : Bool) (d : String) :
    sendCore fs ctx o trailing (some d) =
      match resolvePath (rootVal o) (withIndex o trailing d) with
      | .error e => ⟨.thrown e, ctx, "", []⟩
      | .ok p =>
        if hiddenOf o = false ∧ isHidden (rootVal o) p = true then ⟨.notApplicable, ctx, "", []⟩
        else restPipeline fs ctx o p := rfl

/-! ## Claim C1 -/

/-- C1: for every request path whose decoded form contains `..` segments that
would resolve outside the configured root, `send` fails with the containment
error propagated from the containment-safe join, and the trace is empty: no
stat and no existence check is performed (the context is untouched too). -/
theorem containment_error_no_fs_probe (fs : FileSys) (ctx : Ctx) (o : Opts) (raw d : String)
    (hne : raw ≠ "") (hs : o.setHeaders ≠ .notFunction)
    (hd : decode (stripParseRoot raw) = some d)
    (habs : (withIndex o (lastIsSlash raw) d).data.head? ≠ some ('/'))
    (hesc : containSegs [] (splitSlash (withIndex o (lastIsSlash raw) d).data) = none) :
    send fs ctx raw o = ⟨.thrown .containment, ctx, "", []⟩ := by
  rw [send_eval fs ctx o raw hne hs, hd, sendCore_some]
  have hrp : resolvePath (rootVal o) (withIndex o (lastIsSlash raw) d) = .error .containment := by
    unfold resolvePath
    rw [if_neg habs, hesc]
  rw [hrp]

/-- Witness for C1 at the concrete request `/../x` against root `/r`. -/
theorem containment_error_no_fs_probe_witness :
    send fsEmpty ctxBase ("/../x") { root := some ("/r") }
      = ⟨.thrown .containment, ctxBase, "", []⟩ :=
  containment_error_no_fs_probe fsEmpty ctxBase { root := some ("/r") } ("/../x") ("../x")
    (by decide) (fun h => SetHeadersOpt.noConfusion h) (by decide) (by decide) (by decide)

/-! ## Claim C4 -/

/-- C4: when the resolved path has a segment starting with a dot (relative to
the root), `send` returns the non-error `notApplicable` outcome, touching
neither the context nor the filesystem, when the `hidden` option is falsy;
and when `hidden` is true it proceeds normally with the rest of the pipeline
(the negotiation, fallback, stat and header stages applied to that path). -/
theorem hidden_segment_behavior (fs : FileSys) (ctx : Ctx) (o : Opts) (raw d p : String)
    (hne : raw ≠ "") (hs : o.setHeaders ≠ .notFunction)
    (hd : decode (stripParseRoot raw) = some d)
    (hr : resolvePath (rootVal o) (withIndex o (lastIsSlash raw) d) = .ok p)
    (hh : isHidden (rootVal o) p = true) :
    (hiddenOf o = false → send fs ctx raw o = ⟨.notApplicable, ctx, "", []⟩) ∧
    (hiddenOf o = true → send fs ctx raw o = restPipeline fs ctx o p) := by
  constructor
  · intro hfalse
    rw [send_eval fs ctx o raw hne hs, hd, sendCore_some, hr]
    show (if hiddenOf o = false ∧ isHidden (rootVal o) p = true then
        (⟨.notApplicable, ctx, "", []⟩ : SendResult) else restPipeline fs ctx o p)
      = ⟨.notApplicable, ctx, "", []⟩
    rw [if_pos ⟨hfalse, hh⟩]
  · intro htrue
    exact send_reaches_rest fs ctx o raw d p hne hs hd hr (Or.inl htrue)

/-- Witness for C4 at the concrete request `/.secret` against root `/r` with
`hidden` unset (falsy). -/
theorem hidden_segment_behavior_witness :
    send fsEmpty ctxBase ("/.secret") { root := some ("/r") }
      = ⟨.notApplicable, ctxBase, "", []⟩ :=
  (hidden_segment_behavior fsEmpty ctxBase { root := some ("/r") } ("/.secret") (".secret")
    ("/r/.secret") (by decide) (fun h => SetHeadersOpt.noConfusion h) (by decide) rfl
    (by decide)).1 (by decide)

/-! ## Claim C2 -/

/-- C2: when the client accepts both `br` and `gzip`, both options are
enabled and both sibling files exist, resolution takes the brotli branch:
`encodingExt` becomes `.br`, the trace starts with the `.br` existence probe
followed by a stat of the rewritten path `p + '.br'`, and no existence check
for `p + '.gz'` ever appears in the trace (first match wins, gzip is not
probed). -/
theorem brotli_first_gz_never_probed (fs : FileSys) (ctx : Ctx) (o : Opts) (raw d p : String)
    (hne : raw ≠ "") (hs : o.setHeaders ≠ .notFunction)
    (hd : decode (stripParseRoot raw) = some d)
    (hr : resolvePath (rootVal o) (withIndex o (lastIsSlash raw) d) = .ok p)
    (hpass : hiddenOf o = true ∨ isHidden (rootVal o) p = false)
    (hab : ctx.acceptBr = true) (hag : ctx.acceptGzip = true)
    (hbr : brotliOf o = true) (hgz : gzipOf o = true)
    (hfbr : fs.access (p ++ ".br") = true) (hfgz : fs.access (p ++ ".gz") = true) :
    (send fs ctx raw o).encExt = ".br" ∧
    (∃ rest, (send fs ctx raw o).trace
      = FsOp.access (p ++ ".br") :: FsOp.statOp (p ++ ".br") :: rest) ∧
    FsOp.access (p ++ ".gz") ∉ (send fs ctx raw o).trace := by
  rw [send_reaches_rest fs ctx o raw d p hne hs hd hr hpass]
  have henc := encodingStage_br fs ctx (brotliOf o) (gzipOf o) p hab hbr hfbr
  have hext := extStage_skip_dot fs o.extensions (p ++ ".br") (hasDot_basename_br p)
  obtain ⟨rest, hrest, honly⟩ := statStage_ops_shape fs (formatOf o) (indexVal o) (p ++ ".br")
  rcases hst : statStage fs (formatOf o) (indexVal o) (p ++ ".br") with ⟨ops3, sres⟩
  have hops : ops3 = FsOp.statOp (p ++ ".br") :: rest := by
    rw [hst] at hrest
    exact hrest
  have hmem3 : FsOp.access (p ++ ".gz") ∉ FsOp.access (p ++ ".br") :: ops3 := by
    intro hmem
    rcases List.mem_cons.mp hmem with h1 | h2
    · exact string_append_right_ne p (by decide) (FsOp.access.inj h1)
    · rw [hops] at h2
      rcases List.mem_cons.mp h2 with h3 | h4
      · exact FsOp.noConfusion h3
      · obtain ⟨q, hq⟩ := honly _ h4
        exact FsOp.noConfusion hq
  simp only [restPipeline, henc, hext, hst]
  cases sres <;>
    exact ⟨rfl, ⟨rest, by simp [hops]⟩, by simpa using hmem3⟩

/-- Witness for C2: request `/a` against root `/r` with both `/r/a.br` and
`/r/a.gz` present and a client accepting both encodings. -/
theorem brotli_first_gz_never_probed_witness :
    (send fsBrGz ctxBoth ("/a") { root := some ("/r") }).encExt = ".br" ∧
    (∃ rest, (send fsBrGz ctxBoth ("/a") { root := some ("/r") }).trace
      = FsOp.access ("/r/a" ++ ".br") :: FsOp.statOp ("/r/a" ++ ".br") :: rest) ∧
    FsOp.access ("/r/a" ++ ".gz") ∉ (send fsBrGz ctxBoth ("/a") { root := some ("/r") }).trace :=
  brotli_first_gz_never_probed fsBrGz ctxBoth { root := some ("/r") } ("/a") ("a") ("/r/a")
    (by decide) (fun h => SetHeadersOpt.noConfusion h) (by decide) rfl (Or.inr (by decide))
    rfl rfl rfl rfl (by decide) (by decide)

/-! ## Claim C10 -/

/-- C10: whenever the basename of the candidate path contains a dot anywhere
(and no precompressed negotiation applies), the extension fallback is
skipped entirely: the whole trace contains no existence check at all, and
the stat is performed on the unchanged path. -/
theorem ext_fallback_skipped_on_dot (fs : FileSys) (ctx : Ctx) (o : Opts) (raw d p : String)
    (hne : raw ≠ "") (hs : o.setHeaders ≠ .notFunction)
    (hd : decode (stripParseRoot raw) = some d)
    (hr : resolvePath (rootVal o) (withIndex o (lastIsSlash raw) d) = .ok p)
    (hpass : hiddenOf o = true ∨ isHidden (rootVal o) p = false)
    (hab : ctx.acceptBr = false) (hag : ctx.acceptGzip = false)
    (hdot : hasDot (basename p) = true) :
    (∀ q, FsOp.access q ∉ (send fs ctx raw o).trace) ∧
    (∃ rest, (send fs ctx raw o).trace = FsOp.statOp p :: rest) := by
  rw [send_reaches_rest fs ctx o raw d p hne hs hd hr hpass]
  have henc := encodingStage_skip fs ctx (brotliOf o) (gzipOf o) p hab hag
  have hext := extStage_skip_dot fs o.extensions p hdot
  obtain ⟨rest, hrest, honly⟩ := statStage_ops_shape fs (formatOf o) (indexVal o) p
  rcases hst : statStage fs (formatOf o) (indexVal o) p with ⟨ops3, sres⟩
  have hops : ops3 = FsOp.statOp p :: rest := by
    rw [hst] at hrest
    exact hrest
  have hnoacc : ∀ q, FsOp.access q ∉ ops3 := by
    intro q hmem
    rw [hops] at hmem
    rcases List.mem_cons.mp hmem with h1 | h2
    · exact FsOp.noConfusion h1
    · obtain ⟨q2, hq⟩ := honly _ h2
      exact FsOp.noConfusion hq
  simp only [restPipeline, henc, hext, hst]
  cases sres <;>
    exact ⟨fun q => by simpa using hnoacc q, ⟨rest, by simp [hops]⟩⟩

/-- Witness for C10: request `/app.v2` (dotted basename, no proper
extension) against root `/r` with an extensions list configured; the claim
theorem yields that no existence probe happens and the stat targets the
unchanged path. -/
theorem ext_fallback_skipped_on_dot_witness :
    (∀ q, FsOp.access q ∉
      (send fsEmpty ctxBase ("/app.v2")
        { root := some ("/r"), extensions := some [.str ("html")] }).trace) ∧
    (∃ rest, (send fsEmpty ctxBase ("/app.v2")
        { root := some ("/r"), extensions := some [.str ("html")] }).trace
      = FsOp.statOp ("/r/app.v2") :: rest) :=
  ext_fallback_skipped_on_dot fsEmpty ctxBase
    { root := some ("/r"), extensions := some [.str ("html")] } ("/app.v2") ("app.v2")
    ("/r/app.v2") (by decide) (fun h => SetHeadersOpt.noConfusion h) (by decide) rfl
    (Or.inr (by decide)) rfl rfl (by decide)

/-! ## Claim C3 -/

/-- C3: when the stat of the final candidate path fails, the outcome is the
404 error wrapping the original cause exactly when the error code is one of
`ENOENT`, `ENAMETOOLONG`, `ENOTDIR`, and otherwise the 500 error carrying
the original cause. -/
theorem stat_error_classification (fs : FileSys) (ctx : Ctx) (o : Opts) (raw d p : String)
    (e : StatErr)
    (hne : raw ≠ "") (hs : o.setHeaders ≠ .notFunction)
    (hd : decode (stripParseRoot raw) = some d)
    (hr : resolvePath (rootVal o) (withIndex o (lastIsSlash raw) d) = .ok p)
    (hpass : hiddenOf o = true ∨ isHidden (rootVal o) p = false)
    (hab : ctx.acceptBr = false) (hag : ctx.acceptGzip = false)
    (hxt : o.extensions = none)
    (hstat : fs.stat p = .error e) :
    ((send fs ctx raw o).outcome = .thrown (.notFound e) ↔ e.code ∈ notfoundCodes) ∧
    (e.code ∉ notfoundCodes → (send fs ctx raw o).outcome = .thrown (.serverError e)) := by
  rw [send_reaches_rest fs ctx o raw d p hne hs hd hr hpass]
  have henc := encodingStage_skip fs ctx (brotliOf o) (gzipOf o) p hab hag
  have hss := statStage_error fs (formatOf o) (indexVal o) p e hstat
  have key : (restPipeline fs ctx o p).outcome = .thrown (classifyStatErr e) := by
    simp only [restPipeline, henc, hxt, extStage, hss]
  rw [key]
  unfold classifyStatErr
  by_cases hc : notfoundCodes.contains e.code = true
  · rw [if_pos hc]
    have hmem : e.code ∈ notfoundCodes := by simpa using hc
    exact ⟨Iff.intro (fun _ => hmem) (fun _ => rfl), fun hn => absurd hmem hn⟩
  · rw [if_neg hc]
    have hmem : e.code ∉ notfoundCodes := by simpa using hc
    refine ⟨Iff.intro (fun h2 => absurd (SendError.noConfusion (SendOutcome.thrown.inj h2)) id)
      (fun h2 => absurd h2 hmem), fun _ => rfl⟩

/-- Witness for C3: a permissions failure (`EACCES`) on `/r/a` yields the
500 outcome carrying the cause. -/
theorem stat_error_classification_witness :
    (send fsEacces ctxBase ("/a") { root := some ("/r") }).outcome
      = .thrown (.serverError ⟨("EACCES")⟩) :=
  (stat_error_classification fsEacces ctxBase { root := some ("/r") } ("/a") ("a") ("/r/a")
    ⟨("EACCES")⟩ (by decide) (fun h => SetHeadersOpt.noConfusion h) (by decide) rfl
    (Or.inr (by decide)) rfl rfl rfl rfl).2 (by decide)

/-! ## Header-stage characterization -/

theorem getHeader_hsFinal (c : Ctx) (path encExt n : String) :
    getHeader (hsFinal c path encExt) n = getHeader c n := by
  unfold hsFinal
  split <;> rfl

theorem getHeader_hsLastMod_cc (c : Ctx) (st : Stats) :
    getHeader (hsLastMod c st) ("Cache-Control") = getHeader c ("Cache-Control") := by
  unfold hsLastMod
  split
  · exact getHeader_set_ne _ _ _ _ (by decide)
  · rfl

theorem headerStage_cc (c : Ctx) (o : Opts) (path : String) (st : Stats) (encExt : String) :
    getHeader (headerStage c o path st encExt) ("Cache-Control")
      = (if getHeader c ("Cache-Control") = "" then cacheControlValue o
          else getHeader c ("Cache-Control")) := by
  unfold headerStage hsCache
  rw [getHeader_hsFinal]
  have hc2 : getHeader (hsLastMod (setHeader c ("Content-Length") (toString st.size)) st)
      ("Cache-Control") = getHeader c ("Cache-Control") := by
    rw [getHeader_hsLastMod_cc]
    exact getHeader_set_ne _ _ _ _ (by decide)
  split
  · rw [getHeader_set_same]
    rw [hc2] at *
    simp_all
  · rw [hc2] at *
    simp_all

theorem string_append_empty (a : String) : a ++ "" = a := by
  cases a with
  | mk l =>
    show String.mk (l ++ []) = String.mk l
    rw [List.append_nil]

theorem string_append_assoc (a b c : String) : a ++ b ++ c = a ++ (b ++ c) := by
  cases a with
  | mk x =>
    cases b with
    | mk y =>
      cases c with
      | mk z =>
        show String.mk ((x ++ y) ++ z) = String.mk (x ++ (y ++ z))
        rw [List.append_assoc]

theorem cacheControlValue_eq (o : Opts) :
    cacheControlValue o
      = "max-age=" ++ toString (toInt32 (Int.tdiv (maxageVal o) 1000))
        ++ (if immutableOf o then (",immutable") else "") := by
  unfold cacheControlValue
  cases himm : immutableOf o
  · show joinComma [("max-age=" ++ toString (toInt32 (Int.tdiv (maxageVal o) 1000)))] = _
    unfold joinComma
    rw [if_neg (by simp), string_append_empty]
  · show joinComma [("max-age=" ++ toString (toInt32 (Int.tdiv (maxageVal o) 1000))),
      ("immutable")] = _
    unfold joinComma
    rw [if_pos rfl, string_append_assoc]
    rfl

theorem restPipeline_preserves_cc (fs : FileSys) (ctx : Ctx) (o : Opts) (p : String)
    (hs0 : o.setHeaders = .noHook)
    (hcc : getHeader ctx ("Cache-Control") ≠ "") :
    getHeader (restPipeline fs ctx o p).ctx ("Cache-Control")
      = getHeader ctx ("Cache-Control") := by
  have hege := encodingStage_headers_cc fs ctx (brotliOf o) (gzipOf o) p
  simp only [restPipeline]
  rcases hext : extStage fs o.extensions
      (encodingStage fs ctx (brotliOf o) (gzipOf o) p).path with ⟨ops2, r⟩
  cases r with
  | error m =>
    exact hege
  | ok p2 =>
    dsimp only
    rcases hst : statStage fs (formatOf o) (indexVal o) p2 with ⟨ops3, sres⟩
    cases sres with
    | halt out =>
      exact hege
    | good p3 st =>
      dsimp only
      rw [hs0]
      show getHeader (headerStage (encodingStage fs ctx (brotliOf o) (gzipOf o) p).ctx
        o p3 st (encodingStage fs ctx (brotliOf o) (gzipOf o) p).encExt) ("Cache-Control") = _
      rw [headerStage_cc, hege, if_neg hcc]

/-! ## Claim C6 -/

/-- C6: a `Cache-Control` header already present on the response before
resolution begins keeps its exact value through a successful resolution with
no `setHeaders` hook: the resolver writes `Cache-Control` only when it is
absent. -/
theorem preset_cache_control_preserved (fs : FileSys) (ctx : Ctx) (o : Opts) (raw d p q : String)
    (hne : raw ≠ "") (hs0 : o.setHeaders = .noHook)
    (hd : decode (stripParseRoot raw) = some d)
    (hr : resolvePath (rootVal o) (withIndex o (lastIsSlash raw) d) = .ok p)
    (hpass : hiddenOf o = true ∨ isHidden (rootVal o) p = false)
    (hcc : getHeader ctx ("Cache-Control") ≠ "")
    (hsucc : (send fs ctx raw o).outcome = .resolved q) :
    getHeader (send fs ctx raw o).ctx ("Cache-Control") = getHeader ctx ("Cache-Control") := by
  rw [send_reaches_rest fs ctx o raw d p hne
    (by rw [hs0]; intro h; exact SetHeadersOpt.noConfusion h) hd hr hpass]
  exact restPipeline_preserves_cc fs ctx o p hs0 hcc

/-- Witness for C6: `/r/a` resolves successfully while the caller-set value
`private` survives unchanged. -/
theorem preset_cache_control_preserved_witness :
    getHeader (send fsOneFile ctxPreset ("/a") { root := some ("/r") }).ctx ("Cache-Control")
      = getHeader ctxPreset ("Cache-Control") :=
  preset_cache_control_preserved fsOneFile ctxPreset { root := some ("/r") } ("/a") ("a")
    ("/r/a") ("/r/a") (by decide) rfl (by decide) rfl (Or.inr (by decide)) (by decide)
    (by decide)

theorem send_success_headers (fs : FileSys) (ctx : Ctx) (o : Opts) (raw d p : String) (st : Stats)
    (hne : raw ≠ "") (hs0 : o.setHeaders = .noHook)
    (hd : decode (stripParseRoot raw) = some d)
    (hr : resolvePath (rootVal o) (withIndex o (lastIsSlash raw) d) = .ok p)
    (hpass : hiddenOf o = true ∨ isHidden (rootVal o) p = false)
    (hab : ctx.acceptBr = false) (hag : ctx.acceptGzip = false)
    (hxt : o.extensions = none)
    (hstat : fs.stat p = .ok st) (hdir : st.isDir = false) :
    send fs ctx raw o = ⟨.resolved p, headerStage ctx o p st "", "", [FsOp.statOp p]⟩ := by
  rw [send_reaches_rest fs ctx o raw d p hne
    (by rw [hs0]; intro h; exact SetHeadersOpt.noConfusion h) hd hr hpass]
  have henc := encodingStage_skip fs ctx (brotliOf o) (gzipOf o) p hab hag
  have hss := statStage_file fs (formatOf o) (indexVal o) p st hstat hdir
  simp only [restPipeline, henc, hxt, extStage, hss, hs0, applyHook, List.nil_append]

/-! ## Claim C7 -/

/-- C7 counterexample: with `maxAge = -1500` the code emits
`max-age=-1` (JavaScript `| 0` truncates toward zero), while the claimed
`floor(maxAge / 1000)` is `-2`; the resolution is otherwise successful, so
the claim's formula is wrong at this input. -/
theorem cache_control_floor_counterexample :
    (send fsOneFile ctxBase ("/a") { root := some ("/r"), maxAge := some (-1500) }).outcome
      = .resolved ("/r/a") ∧
    getHeader (send fsOneFile ctxBase ("/a")
        { root := some ("/r"), maxAge := some (-1500) }).ctx ("Cache-Control")
      = ("max-age=-1") ∧
    (("max-age=-1") : String) ≠ "max-age=" ++ toString (Int.fdiv (-1500) 1000) := by
  decide

/-- C7 (amended): when no `Cache-Control` is pre-set and resolution
succeeds (no hook, no negotiation, no fallback), the resolver sets
`Cache-Control` to `max-age=` followed by the cache lifetime divided by
1000 *truncated toward zero and wrapped to a signed 32-bit integer* (the
semantics of JavaScript `maxage / 1000 | 0` on integer lifetimes), with
`immutable` appended comma-joined exactly when the option is set. -/
theorem cache_control_value_formula (fs : FileSys) (ctx : Ctx) (o : Opts) (raw d p : String)
    (st : Stats)
    (hne : raw ≠ "") (hs0 : o.setHeaders = .noHook)
    (hd : decode (stripParseRoot raw) = some d)
    (hr : resolvePath (rootVal o) (withIndex o (lastIsSlash raw) d) = .ok p)
    (hpass : hiddenOf o = true ∨ isHidden (rootVal o) p = false)
    (hab : ctx.acceptBr = false) (hag : ctx.acceptGzip = false)
    (hxt : o.extensions = none)
    (hstat : fs.stat p = .ok st) (hdir : st.isDir = false)
    (hcc : getHeader ctx ("Cache-Control") = "") :
    getHeader (send fs ctx raw o).ctx ("Cache-Control")
      = "max-age=" ++ toString (toInt32 (Int.tdiv (maxageVal o) 1000))
        ++ (if immutableOf o then (",immutable") else "") := by
  rw [send_success_headers fs ctx o raw d p st hne hs0 hd hr hpass hab hag hxt hstat hdir]
  show getHeader (headerStage ctx o p st "") ("Cache-Control") = _
  rw [headerStage_cc, if_pos hcc, cacheControlValue_eq]

/-- Witness for the amended C7 at `maxAge = -1500`, `immutable` unset. -/
theorem cache_control_value_formula_witness :
    getHeader (send fsOneFile ctxBase ("/a")
        { root := some ("/r"), maxAge := some (-1500) }).ctx ("Cache-Control")
      = "max-age=" ++ toString (toInt32 (Int.tdiv
          (maxageVal { root := some ("/r"), maxAge := some (-1500) }) 1000))
        ++ (if immutableOf { root := some ("/r"), maxAge := some (-1500) }
            then (",immutable") else "") :=
  cache_control_value_formula fsOneFile ctxBase { root := some ("/r"), maxAge := some (-1500) }
    ("/a") ("a") ("/r/a") ⟨false, 5, ("mt")⟩ (by decide) rfl (by decide) rfl
    (Or.inr (by decide)) rfl rfl rfl rfl rfl (by decide)

/-! ## Claim C9 -/

/-- C9 counterexample: with `maxage = 0` and `maxAge = 5000` supplied
together, the emitted header uses `maxAge` (5 seconds), not the claimed
precedence of `maxage` (which would give `max-age=0`): a falsy `maxage`
does not take precedence. -/
theorem maxage_precedence_counterexample :
    getHeader (send fsOneFile ctxBase ("/a")
        { root := some ("/r"), maxage := some 0, maxAge := some 5000 }).ctx ("Cache-Control")
      = ("max-age=5") ∧ ((("max-age=5") : String) ≠ "max-age=0") := by
  decide

/-- C9 (amended): the cache lifetime is `opts.maxage || opts.maxAge || 0`
on integer options: a *nonzero* `maxage` takes precedence; a zero or absent
`maxage` defers to `maxAge` (itself defaulting to zero); when neither is
supplied the lifetime is 0. -/
theorem maxage_option_reading (a : Int) (mb : Option Int) (h : a ≠ 0) :
    maxageVal { maxage := some a, maxAge := mb } = a ∧
    maxageVal { maxage := some 0, maxAge := mb } = mb.getD 0 ∧
    maxageVal { maxage := none, maxAge := mb } = mb.getD 0 := by
  refine ⟨?_, ?_, ?_⟩
  · unfold maxageVal
    simp only [Option.getD_some]
    rw [if_pos h]
  · unfold maxageVal
    simp only [Option.getD_some]
    rw [if_neg (by simp)]
    by_cases hb : mb.getD 0 = 0
    · rw [if_neg (by simpa using hb), hb]
    · rw [if_pos hb]
  · unfold maxageVal
    simp only [Option.getD_none]
    rw [if_neg (by simp)]
    by_cases hb : mb.getD 0 = 0
    · rw [if_neg (by simpa using hb), hb]
    · rw [if_pos hb]

/-- Witness for the amended C9 at `maxage = 7`, `maxAge = 3`. -/
theorem maxage_option_reading_witness :
    maxageVal { maxage := some 7, maxAge := some 3 } = 7 ∧
    maxageVal { maxage := some 0, maxAge := some 3 } = (some (3 : Int)).getD 0 ∧
    maxageVal { maxage := none, maxAge := some 3 } = (some (3 : Int)).getD 0 :=
  maxage_option_reading 7 (some 3) (by decide)

/-! ## Claim C5 -/

/-- C5 counterexample: with `extensions = ['html', <non-string>]` and no
`/r/a.html` on disk, `send` does throw the configuration `TypeError`, but
only after performing the existence check for the first candidate: the
trace contains a filesystem probe executed before the failure, refuting
"fails fast before any filesystem access" for non-string entries at
arbitrary positions. -/
theorem ext_nonstring_counterexample :
    (send fsEmpty ctxBase ("/a")
        { root := some ("/r"), extensions := some [.str ("html"), .nonString] }).outcome
      = .thrown (.configError ("option extensions must be array of strings or false")) ∧
    (send fsEmpty ctxBase ("/a")
        { root := some ("/r"), extensions := some [.str ("html"), .nonString] }).trace
      = [FsOp.access ("/r/a.html")] := by
  decide

/-- C5 (amended): a non-string entry of the extensions list causes the
configuration `TypeError` exactly when the scan reaches it: the fallback
stage must be active (no dot in the basename) and every earlier candidate
must be a string whose file does not exist.  The failure is raised before
probing anything at or past the non-string entry — the trace consists of
precisely the earlier candidates' existence checks. -/
theorem ext_nonstring_when_reached (fs : FileSys) (ctx : Ctx) (o : Opts) (raw d p : String)
    (pre : List String) (post : List ExtEntry)
    (hne : raw ≠ "") (hs : o.setHeaders ≠ .notFunction)
    (hd : decode (stripParseRoot raw) = some d)
    (hr : resolvePath (rootVal o) (withIndex o (lastIsSlash raw) d) = .ok p)
    (hpass : hiddenOf o = true ∨ isHidden (rootVal o) p = false)
    (hab : ctx.acceptBr = false) (hag : ctx.acceptGzip = false)
    (hnd : hasDot (basename p) = false)
    (hxt : o.extensions = some (pre.map ExtEntry.str ++ ExtEntry.nonString :: post))
    (hmiss : ∀ s ∈ pre, fs.access (p ++ normExt s) = false) :
    (send fs ctx raw o).outcome
      = .thrown (.configError ("option extensions must be array of strings or false")) ∧
    (send fs ctx raw o).trace = pre.map (fun s => FsOp.access (p ++ normExt s)) := by
  rw [send_reaches_rest fs ctx o raw d p hne hs hd hr hpass]
  have henc := encodingStage_skip fs ctx (brotliOf o) (gzipOf o) p hab hag
  have hloop := extLoop_nonstring fs p post pre hmiss
  simp only [restPipeline, henc, hxt, extStage, hnd, hloop, List.nil_append]
  exact ⟨rfl, rfl⟩

/-- Witness for the amended C5: one missing string candidate before the
non-string entry. -/
theorem ext_nonstring_when_reached_witness :
    (send fsEmpty ctxBase ("/b")
        { root := some ("/r"), extensions := some [.str ("htm"), .nonString] }).outcome
      = .thrown (.configError ("option extensions must be array of strings or false")) ∧
    (send fsEmpty ctxBase ("/b")
        { root := some ("/r"), extensions := some [.str ("htm"), .nonString] }).trace
      = [("htm")].map (fun s => FsOp.access ("/r/b" ++ normExt s)) :=
  ext_nonstring_when_reached fsEmpty ctxBase
    { root := some ("/r"), extensions := some [.str ("htm"), .nonString] } ("/b") ("b") ("/r/b")
    [("htm")] [] (by decide) (fun h => SetHeadersOpt.noConfusion h) (by decide) rfl
    (Or.inr (by decide)) rfl rfl (by decide) rfl (by decide)

/-! ## Character and hexadecimal facts (toward the round-trip claim C8) -/

theorem nat_isValidChar_of_lt {n : Nat} (h : n < 0xD800) : n.isValidChar := Or.inl h

theorem char_toNat_lt (c : Char) : c.toNat < 0x110000 := by
  have h := c.valid
  rcases h with h | ⟨h1, h2⟩
  · have h2 := @UInt32.toNat_lt_of_lt c.val 0xD800 (by decide) h
    simp only [Char.toNat]
    omega
  · have h3 := @UInt32.toNat_lt_of_lt c.val 0x110000 (by decide) h2
    simp only [Char.toNat]
    omega

theorem char_not_surrogate (c : Char) : ¬ (0xD800 ≤ c.toNat ∧ c.toNat < 0xE000) := by
  have h := c.valid
  rcases h with h | ⟨h1, h2⟩
  · have h2 := @UInt32.toNat_lt_of_lt c.val 0xD800 (by decide) h
    simp only [Char.toNat]
    omega
  · have h3 := @UInt32.lt_toNat_of_lt c.val 0xDFFF (by decide) h1
    simp only [Char.toNat]
    omega

theorem hexVal_escaped {c : Char} (h : isKept c = false) : hexVal c = none := by
  unfold isKept at h
  rw [decide_eq_false_iff_not] at h
  unfold hexVal
  rw [if_neg (by omega), if_neg (by omega), if_neg (by omega)]

theorem isKept_of_hexVal {c : Char} {a : Nat} (h : hexVal c = some a) : isKept c = true := by
  cases hk : isKept c
  · rw [hexVal_escaped hk] at h
    cases h
  · rfl

theorem hexVal_hexDigitChar (n : Nat) (h : n < 16) : hexVal (hexDigitChar n) = some n := by
  unfold hexDigitChar
  by_cases h10 : n < 10
  · rw [if_pos h10]
    have ht : (Char.ofNat (0x30 + n)).toNat = 0x30 + n :=
      char_toNat_ofNat _ (nat_isValidChar_of_lt (by omega))
    unfold hexVal
    rw [ht, if_pos (by omega)]
    congr 1
    omega
  · rw [if_neg h10]
    have ht : (Char.ofNat (0x41 + n - 10)).toNat = 0x41 + n - 10 :=
      char_toNat_ofNat _ (nat_isValidChar_of_lt (by omega))
    unfold hexVal
    rw [ht, if_neg (by omega), if_neg (by omega), if_pos (by omega)]
    congr 1
    omega

theorem hexDigitChar_toNat (n : Nat) (h : n < 16) :
    (hexDigitChar n).toNat = (if n < 10 then 0x30 + n else 0x41 + n - 10) := by
  unfold hexDigitChar
  by_cases h10 : n < 10
  · rw [if_pos h10, if_pos h10]
    exact char_toNat_ofNat _ (nat_isValidChar_of_lt (by omega))
  · rw [if_neg h10, if_neg h10]
    exact char_toNat_ofNat _ (nat_isValidChar_of_lt (by omega))

theorem hexDigitChar_ne_slash (n : Nat) (h : n < 16) : hexDigitChar n ≠ '/' := by
  apply char_ne_of_toNat_ne
  rw [hexDigitChar_toNat n h]
  have hs : ('/').toNat = 0x2F := rfl
  rw [hs]
  split <;> omega

theorem hexVal_pct : hexVal ('%') = none := by decide

theorem isKept_pct : isKept ('%') = true := by decide

theorem isKept_slash : isKept ('/') = true := by decide

theorem encChar_kept {c : Char} (h : isKept c = true) : encChar c = [c] := by
  unfold encChar
  rw [if_pos h]

theorem encChar_escaped {c : Char} (h : isKept c = false) :
    encChar c = ((utf8Bytes c.toNat).map escByte).flatten := by
  unfold encChar
  rw [if_neg (by simp [h])]

theorem encodeList_nil : encodeList [] = [] := rfl

theorem encodeList_cons (c : Char) (t : List Char) :
    encodeList (c :: t) = encChar c ++ encodeList t := by
  unfold encodeList
  rw [List.map_cons, List.flatten_cons]

theorem utf8Bytes_shape (v : Nat) :
    ∃ b bs, utf8Bytes v = b :: bs ∧ ¬ (0x80 ≤ b ∧ b < 0xC0) := by
  unfold utf8Bytes
  by_cases h1 : v < 0x80
  · rw [if_pos h1]
    exact ⟨v, [], rfl, by omega⟩
  · rw [if_neg h1]
    by_cases h2 : v < 0x800
    · rw [if_pos h2]
      exact ⟨_, _, rfl, by omega⟩
    · rw [if_neg h2]
      by_cases h3 : v < 0x10000
      · rw [if_pos h3]
        exact ⟨_, _, rfl, by omega⟩
      · rw [if_neg h3]
        exact ⟨_, _, rfl, by omega⟩

theorem utf8Bytes_lt (v : Nat) (hv : v < 0x110000) : ∀ b ∈ utf8Bytes v, b < 256 := by
  unfold utf8Bytes
  by_cases h1 : v < 0x80
  · rw [if_pos h1]
    intro b hb
    rw [List.mem_singleton] at hb
    omega
  · rw [if_neg h1]
    by_cases h2 : v < 0x800
    · rw [if_pos h2]
      intro b hb
      simp only [List.mem_cons, List.not_mem_nil, or_false] at hb
      rcases hb with hb | hb <;> omega
    · rw [if_neg h2]
      by_cases h3 : v < 0x10000
      · rw [if_pos h3]
        intro b hb
        simp only [List.mem_cons, List.not_mem_nil, or_false] at hb
        rcases hb with hb | hb | hb <;> omega
      · rw [if_neg h3]
        intro b hb
        simp only [List.mem_cons, List.not_mem_nil, or_false] at hb
        rcases hb with hb | hb | hb | hb <;> omega

/-! ## Tokenization equations and the encoder-tokenizer relation -/

theorem pctTokens_nil : pctTokens [] = some [] := rfl

theorem pctTokens_cons_ne {c : Char} (t : List Char) (h : c ≠ '%') :
    pctTokens (c :: t) = (pctTokens t).map (fun r => Sum.inr c :: r) := by
  conv_lhs => unfold pctTokens
  rw [if_neg h]

theorem pctTokens_hex {h1 h2 : Char} {a b : Nat} (t : List Char)
    (ha : hexVal h1 = some a) (hb : hexVal h2 = some b) :
    pctTokens ('%' :: h1 :: h2 :: t) = (pctTokens t).map (fun r => Sum.inl (16 * a + b) :: r) := by
  conv_lhs => unfold pctTokens
  rw [if_pos rfl]
  simp only [ha, hb]

theorem pctTokens_hex_bad1 {h1 : Char} (h2 : Char) (t : List Char) (ha : hexVal h1 = none) :
    pctTokens ('%' :: h1 :: h2 :: t) = none := by
  unfold pctTokens
  rw [if_pos rfl]
  simp only [ha]

theorem pctTokens_hex_bad2 {h2 : Char} (h1 : Char) (t : List Char) (hb : hexVal h2 = none) :
    pctTokens ('%' :: h1 :: h2 :: t) = none := by
  unfold pctTokens
  rw [if_pos rfl]
  simp only [hb]
  cases hexVal h1 <;> rfl

theorem pctTokens_pct_nil : pctTokens [ '%' ] = none := rfl

theorem pctTokens_pct_one (x : Char) : pctTokens [ '%', x ] = none := rfl

theorem pctTokens_escByte (b : Nat) (hb : b < 256) (rest : List Char) :
    pctTokens (escByte b ++ rest) = (pctTokens rest).map (fun r => Sum.inl b :: r) := by
  unfold escByte
  simp only [List.cons_append, List.nil_append]
  rw [pctTokens_hex rest (hexVal_hexDigitChar (b / 16) (by omega))
    (hexVal_hexDigitChar (b % 16) (by omega))]
  have hdm : 16 * (b / 16) + b % 16 = b := by omega
  rw [hdm]

theorem pctTokens_escBytes (bs : List Nat) (hb : ∀ b ∈ bs, b < 256) (rest : List Char) :
    pctTokens ((bs.map escByte).flatten ++ rest)
      = (pctTokens rest).map (fun r => bs.map Sum.inl ++ r) := by
  induction bs with
  | nil =>
    simp only [List.map_nil, List.flatten_nil, List.nil_append]
    cases pctTokens rest <;> rfl
  | cons b t ih =>
    simp only [List.map_cons, List.flatten_cons, List.append_assoc]
    rw [pctTokens_escByte b (hb b (List.mem_cons_self b t)) _]
    rw [ih (fun x hx => hb x (List.mem_cons_of_mem b hx))]
    cases pctTokens rest <;> simp

theorem tokExpand_ne_nil (x : Sum Nat Char) : tokExpand x ≠ [] := by
  cases x with
  | inl b => exact fun h => List.noConfusion h
  | inr c =>
    show (if isKept c = true then [Sum.inr c] else (utf8Bytes c.toNat).map Sum.inl) ≠ []
    cases hk : isKept c
    · rw [if_neg (by simp)]
      obtain ⟨b, bs, hshape, _⟩ := utf8Bytes_shape c.toNat
      rw [hshape]
      exact fun h => List.noConfusion h
    · rw [if_pos rfl]
      exact fun h => List.noConfusion h

theorem encChar_ne_nil (c : Char) : encChar c ≠ [] := by
  cases hk : isKept c
  · rw [encChar_escaped hk]
    obtain ⟨b, bs, hshape, _⟩ := utf8Bytes_shape c.toNat
    rw [hshape]
    simp [escByte]
  · rw [encChar_kept hk]
    exact fun h => List.noConfusion h

theorem tokExpand_inl (b : Nat) : tokExpand (Sum.inl b) = [Sum.inl b] := rfl

theorem tokExpand_kept {c : Char} (h : isKept c = true) : tokExpand (Sum.inr c) = [Sum.inr c] := by
  show (if isKept c = true then [Sum.inr c] else (utf8Bytes c.toNat).map Sum.inl) = _
  rw [if_pos h]

theorem tokExpand_escaped {c : Char} (h : isKept c = false) :
    tokExpand (Sum.inr c) = (utf8Bytes c.toNat).map Sum.inl := by
  show (if isKept c = true then [Sum.inr c] else (utf8Bytes c.toNat).map Sum.inl) = _
  rw [if_neg (by simp [h])]

theorem expandF_cons (x : Sum Nat Char) (ts : List (Sum Nat Char)) :
    (((x :: ts).map tokExpand).flatten) = tokExpand x ++ ((ts.map tokExpand).flatten) := by
  rw [List.map_cons, List.flatten_cons]

theorem pctTokens_encodeList_aux :
    ∀ (n : Nat) (l : List Char), l.length ≤ n →
      pctTokens (encodeList l)
        = (pctTokens l).map (fun ts => (ts.map tokExpand).flatten) := by
  intro n
  induction n with
  | zero =>
    intro l hl
    have h0 : l = [] := List.length_eq_zero.mp (Nat.le_zero.mp hl)
    subst h0
    rfl
  | succ n ih =>
    intro l hl
    rcases l with _ | ⟨c, t⟩
    · rfl
    by_cases hc : c = '%'
    · subst hc
      rw [encodeList_cons, encChar_kept isKept_pct, List.singleton_append]
      rcases t with _ | ⟨x, t1⟩
      · rw [encodeList_nil]
        rfl
      rcases t1 with _ | ⟨y, t2⟩
      · rw [encodeList_cons, encodeList_nil, List.append_nil]
        cases hkx : isKept x
        · rw [encChar_escaped hkx]
          obtain ⟨b, bs, hshape, hnc⟩ := utf8Bytes_shape x.toNat
          rw [hshape, List.map_cons, List.flatten_cons]
          simp only [escByte, List.cons_append, List.nil_append]
          rw [pctTokens_hex_bad1 _ _ hexVal_pct, pctTokens_pct_one]
          rfl
        · rw [encChar_kept hkx]
          rw [pctTokens_pct_one]
          rfl
      · cases hhx : hexVal x with
        | some a =>
          have hkx : isKept x = true := isKept_of_hexVal hhx
          cases hhy : hexVal y with
          | some b =>
            have hky : isKept y = true := isKept_of_hexVal hhy
            rw [encodeList_cons, encChar_kept hkx, List.singleton_append,
              encodeList_cons, encChar_kept hky, List.singleton_append]
            rw [pctTokens_hex _ hhx hhy, pctTokens_hex _ hhx hhy]
            rw [ih t2 (by simp only [List.length_cons] at hl; omega)]
            cases pctTokens t2 <;> simp [expandF_cons, tokExpand_inl]
          | none =>
            rw [encodeList_cons, encChar_kept hkx, List.singleton_append]
            rw [pctTokens_hex_bad2 _ _ hhy]
            cases hky : isKept y
            · rw [encodeList_cons, encChar_escaped hky]
              obtain ⟨b, bs, hshape, hnc⟩ := utf8Bytes_shape y.toNat
              rw [hshape, List.map_cons, List.flatten_cons]
              simp only [escByte, List.cons_append, List.nil_append]
              rw [pctTokens_hex_bad2 _ _ hexVal_pct]
              rfl
            · rw [encodeList_cons, encChar_kept hky, List.singleton_append]
              rw [pctTokens_hex_bad2 _ _ hhy]
              rfl
        | none =>
          rw [pctTokens_hex_bad1 _ _ hhx]
          cases hkx : isKept x
          · rw [encodeList_cons, encChar_escaped hkx]
            obtain ⟨b, bs, hshape, hnc⟩ := utf8Bytes_shape x.toNat
            rw [hshape, List.map_cons, List.flatten_cons]
            simp only [escByte, List.cons_append, List.nil_append]
            rw [pctTokens_hex_bad1 _ _ hexVal_pct]
            rfl
          · rw [encodeList_cons, encChar_kept hkx, List.singleton_append, encodeList_cons]
            rcases hzw : encChar y ++ encodeList t2 with _ | ⟨z, w⟩
            · exact absurd (List.append_eq_nil.mp hzw).1 (encChar_ne_nil y)
            · rw [pctTokens_hex_bad1 _ _ hhx]
              rfl
    · cases hk : isKept c
      · rw [encodeList_cons, encChar_escaped hk]
        rw [pctTokens_cons_ne t hc]
        have hlt := char_toNat_lt c
        rw [pctTokens_escBytes (utf8Bytes c.toNat) (utf8Bytes_lt c.toNat hlt) (encodeList t)]
        rw [ih t (by simp only [List.length_cons] at hl; omega)]
        cases pctTokens t <;> simp [expandF_cons, tokExpand_escaped hk]
      · rw [encodeList_cons, encChar_kept hk, List.singleton_append]
        rw [pctTokens_cons_ne (encodeList t) hc, pctTokens_cons_ne t hc]
        rw [ih t (by simp only [List.length_cons] at hl; omega)]
        cases pctTokens t <;> simp [expandF_cons, tokExpand_kept hk]

theorem pctTokens_encodeList (l : List Char) :
    pctTokens (encodeList l) = (pctTokens l).map (fun ts => (ts.map tokExpand).flatten) :=
  pctTokens_encodeList_aux l.length l (Nat.le_refl _)


/-! ## Recombination equations -/

theorem utf8Recombine_nil : utf8Recombine [] = some [] := rfl

theorem utf8Recombine_inr (c : Char) (t : List (Sum Nat Char)) :
    utf8Recombine (Sum.inr c :: t) = (utf8Recombine t).map (fun r => c :: r) := rfl

theorem utf8Recombine_ascii (B : Nat) (hB : B < 0x80) (t : List (Sum Nat Char)) :
    utf8Recombine (Sum.inl B :: t) = (utf8Recombine t).map (fun r => Char.ofNat B :: r) := by
  rcases t with _ | ⟨x, t1⟩
  · conv_lhs => unfold utf8Recombine
    rw [if_pos hB]
  rcases x with C1 | c
  · rcases t1 with _ | ⟨y, t2⟩
    · conv_lhs => unfold utf8Recombine
      rw [if_pos hB]
    rcases y with C2 | c
    · rcases t2 with _ | ⟨z, t3⟩
      · conv_lhs => unfold utf8Recombine
        rw [if_pos hB]
      rcases z with C3 | c
      · conv_lhs => unfold utf8Recombine
        rw [if_pos hB]
      · conv_lhs => unfold utf8Recombine
        rw [if_pos hB]
    · conv_lhs => unfold utf8Recombine
      rw [if_pos hB]
  · conv_lhs => unfold utf8Recombine
    rw [if_pos hB]

theorem utf8Recombine_contFail (B : Nat) (hB1 : 0x80 ≤ B) (hB2 : B < 0xC0)
    (t : List (Sum Nat Char)) : utf8Recombine (Sum.inl B :: t) = none := by
  rcases t with _ | ⟨x, t1⟩
  · conv_lhs => unfold utf8Recombine
    rw [if_neg (by omega)]
  rcases x with C1 | c
  · rcases t1 with _ | ⟨y, t2⟩
    · conv_lhs => unfold utf8Recombine
      rw [if_neg (by omega), if_pos hB2]
    rcases y with C2 | c
    · rcases t2 with _ | ⟨z, t3⟩
      · conv_lhs => unfold utf8Recombine
        rw [if_neg (by omega), if_pos hB2]
      rcases z with C3 | c
      · conv_lhs => unfold utf8Recombine
        rw [if_neg (by omega), if_pos hB2]
      · conv_lhs => unfold utf8Recombine
        rw [if_neg (by omega), if_pos hB2]
    · conv_lhs => unfold utf8Recombine
      rw [if_neg (by omega), if_pos hB2]
  · conv_lhs => unfold utf8Recombine
    rw [if_neg (by omega)]

theorem utf8Recombine_highB (B : Nat) (hB : 0xF8 ≤ B) (t : List (Sum Nat Char)) :
    utf8Recombine (Sum.inl B :: t) = none := by
  rcases t with _ | ⟨x, t1⟩
  · conv_lhs => unfold utf8Recombine
    rw [if_neg (by omega)]
  rcases x with C1 | c
  · rcases t1 with _ | ⟨y, t2⟩
    · conv_lhs => unfold utf8Recombine
      rw [if_neg (by omega), if_neg (by omega), if_neg (by omega)]
    rcases y with C2 | c
    · rcases t2 with _ | ⟨z, t3⟩
      · conv_lhs => unfold utf8Recombine
        rw [if_neg (by omega), if_neg (by omega), if_neg (by omega), if_neg (by omega)]
      rcases z with C3 | c
      · conv_lhs => unfold utf8Recombine
        rw [if_neg (by omega), if_neg (by omega), if_neg (by omega), if_neg (by omega),
          if_neg (by omega)]
      · conv_lhs => unfold utf8Recombine
        rw [if_neg (by omega), if_neg (by omega), if_neg (by omega), if_neg (by omega)]
    · conv_lhs => unfold utf8Recombine
      rw [if_neg (by omega), if_neg (by omega), if_neg (by omega)]
  · conv_lhs => unfold utf8Recombine
    rw [if_neg (by omega)]

theorem utf8Recombine_inl_nil (B : Nat) (hB : 0x80 ≤ B) :
    utf8Recombine [ Sum.inl B ] = none := by
  conv_lhs => unfold utf8Recombine
  rw [if_neg (by omega)]

theorem utf8Recombine_inl_inr (B : Nat) (hB : 0x80 ≤ B) (c : Char) (t : List (Sum Nat Char)) :
    utf8Recombine (Sum.inl B :: Sum.inr c :: t) = none := by
  conv_lhs => unfold utf8Recombine
  rw [if_neg (by omega)]

theorem utf8Recombine_lead2_ok (B C1 : Nat) (ts : List (Sum Nat Char))
    (hB1 : 0xC0 ≤ B) (hB2 : B < 0xE0)
    (h : (0x80 ≤ C1 ∧ C1 < 0xC0) ∧ 0x80 ≤ cp2 B C1) :
    utf8Recombine (Sum.inl B :: Sum.inl C1 :: ts)
      = (utf8Recombine ts).map (fun r => Char.ofNat (cp2 B C1) :: r) := by
  rcases ts with _ | ⟨x, t1⟩
  · conv_lhs => unfold utf8Recombine
    rw [if_neg (by omega), if_neg (by omega), if_pos hB2, if_pos h]
  rcases x with C2 | c
  · rcases t1 with _ | ⟨y, t2⟩
    · conv_lhs => unfold utf8Recombine
      rw [if_neg (by omega), if_neg (by omega), if_pos hB2, if_pos h]
    rcases y with C3 | c
    · conv_lhs => unfold utf8Recombine
      rw [if_neg (by omega), if_neg (by omega), if_pos hB2, if_pos h]
    · conv_lhs => unfold utf8Recombine
      rw [if_neg (by omega), if_neg (by omega), if_pos hB2, if_pos h]
  · conv_lhs => unfold utf8Recombine
    rw [if_neg (by omega), if_neg (by omega), if_pos hB2, if_pos h]

theorem utf8Recombine_lead2_fail (B C1 : Nat) (ts : List (Sum Nat Char))
    (hB1 : 0xC0 ≤ B) (hB2 : B < 0xE0)
    (h : ¬ ((0x80 ≤ C1 ∧ C1 < 0xC0) ∧ 0x80 ≤ cp2 B C1)) :
    utf8Recombine (Sum.inl B :: Sum.inl C1 :: ts) = none := by
  rcases ts with _ | ⟨x, t1⟩
  · conv_lhs => unfold utf8Recombine
    rw [if_neg (by omega), if_neg (by omega), if_pos hB2, if_neg h]
  rcases x with C2 | c
  · rcases t1 with _ | ⟨y, t2⟩
    · conv_lhs => unfold utf8Recombine
      rw [if_neg (by omega), if_neg (by omega), if_pos hB2, if_neg h]
    rcases y with C3 | c
    · conv_lhs => unfold utf8Recombine
      rw [if_neg (by omega), if_neg (by omega), if_pos hB2, if_neg h]
    · conv_lhs => unfold utf8Recombine
      rw [if_neg (by omega), if_neg (by omega), if_pos hB2, if_neg h]
  · conv_lhs => unfold utf8Recombine
    rw [if_neg (by omega), if_neg (by omega), if_pos hB2, if_neg h]

theorem utf8Recombine_inl2_nil (B C1 : Nat) (hB : 0xE0 ≤ B) :
    utf8Recombine [ Sum.inl B, Sum.inl C1 ] = none := by
  conv_lhs => unfold utf8Recombine
  rw [if_neg (by omega), if_neg (by omega), if_neg (by omega)]

theorem utf8Recombine_inl2_inr (B C1 : Nat) (hB : 0xE0 ≤ B) (c : Char)
    (t : List (Sum Nat Char)) :
    utf8Recombine (Sum.inl B :: Sum.inl C1 :: Sum.inr c :: t) = none := by
  conv_lhs => unfold utf8Recombine
  rw [if_neg (by omega), if_neg (by omega), if_neg (by omega)]

theorem utf8Recombine_lead3_badc1 (B C1 : Nat) (rest : List (Sum Nat Char))
    (hB1 : 0xE0 ≤ B) (hB2 : B < 0xF0) (hC : ¬ (0x80 ≤ C1 ∧ C1 < 0xC0)) :
    utf8Recombine (Sum.inl B :: Sum.inl C1 :: rest) = none := by
  rcases rest with _ | ⟨x, t1⟩
  · exact utf8Recombine_inl2_nil B C1 hB1
  rcases x with C2 | c
  · rcases t1 with _ | ⟨y, t2⟩
    · conv_lhs => unfold utf8Recombine
      rw [if_neg (by omega), if_neg (by omega), if_neg (by omega), if_pos hB2,
        if_neg (fun hcond => hC hcond.1.1)]
    rcases y with C3 | c
    · conv_lhs => unfold utf8Recombine
      rw [if_neg (by omega), if_neg (by omega), if_neg (by omega), if_pos hB2,
        if_neg (fun hcond => hC hcond.1.1)]
    · conv_lhs => unfold utf8Recombine
      rw [if_neg (by omega), if_neg (by omega), if_neg (by omega), if_pos hB2,
        if_neg (fun hcond => hC hcond.1.1)]
  · exact utf8Recombine_inl2_inr B C1 hB1 c t1

theorem utf8Recombine_lead3_badc2 (B C1 C2 : Nat) (rest : List (Sum Nat Char))
    (hB1 : 0xE0 ≤ B) (hB2 : B < 0xF0) (hC2 : ¬ (0x80 ≤ C2 ∧ C2 < 0xC0)) :
    utf8Recombine (Sum.inl B :: Sum.inl C1 :: Sum.inl C2 :: rest) = none := by
  rcases rest with _ | ⟨x, t1⟩
  · conv_lhs => unfold utf8Recombine
    rw [if_neg (by omega), if_neg (by omega), if_neg (by omega), if_pos hB2,
      if_neg (fun hcond => hC2 hcond.1.2)]
  rcases x with C3 | c
  · conv_lhs => unfold utf8Recombine
    rw [if_neg (by omega), if_neg (by omega), if_neg (by omega), if_pos hB2,
      if_neg (fun hcond => hC2 hcond.1.2)]
  · conv_lhs => unfold utf8Recombine
    rw [if_neg (by omega), if_neg (by omega), if_neg (by omega), if_pos hB2,
      if_neg (fun hcond => hC2 hcond.1.2)]

theorem utf8Recombine_lead3_ok (B C1 C2 : Nat) (ts : List (Sum Nat Char))
    (hB1 : 0xE0 ≤ B) (hB2 : B < 0xF0)
    (h : ((0x80 ≤ C1 ∧ C1 < 0xC0) ∧ (0x80 ≤ C2 ∧ C2 < 0xC0)) ∧
      (0x800 ≤ cp3 B C1 C2 ∧ ¬ (0xD800 ≤ cp3 B C1 C2 ∧ cp3 B C1 C2 < 0xE000))) :
    utf8Recombine (Sum.inl B :: Sum.inl C1 :: Sum.inl C2 :: ts)
      = (utf8Recombine ts).map (fun r => Char.ofNat (cp3 B C1 C2) :: r) := by
  rcases ts with _ | ⟨x, t1⟩
  · conv_lhs => unfold utf8Recombine
    rw [if_neg (by omega), if_neg (by omega), if_neg (by omega), if_pos hB2, if_pos h]
  rcases x with C3 | c
  · conv_lhs => unfold utf8Recombine
    rw [if_neg (by omega), if_neg (by omega), if_neg (by omega), if_pos hB2, if_pos h]
  · conv_lhs => unfold utf8Recombine
    rw [if_neg (by omega), if_neg (by omega), if_neg (by omega), if_pos hB2, if_pos h]

theorem utf8Recombine_lead3_fail (B C1 C2 : Nat) (ts : List (Sum Nat Char))
    (hB1 : 0xE0 ≤ B) (hB2 : B < 0xF0)
    (h : ¬ (((0x80 ≤ C1 ∧ C1 < 0xC0) ∧ (0x80 ≤ C2 ∧ C2 < 0xC0)) ∧
      (0x800 ≤ cp3 B C1 C2 ∧ ¬ (0xD800 ≤ cp3 B C1 C2 ∧ cp3 B C1 C2 < 0xE000)))) :
    utf8Recombine (Sum.inl B :: Sum.inl C1 :: Sum.inl C2 :: ts) = none := by
  rcases ts with _ | ⟨x, t1⟩
  · conv_lhs => unfold utf8Recombine
    rw [if_neg (by omega), if_neg (by omega), if_neg (by omega), if_pos hB2, if_neg h]
  rcases x with C3 | c
  · conv_lhs => unfold utf8Recombine
    rw [if_neg (by omega), if_neg (by omega), if_neg (by omega), if_pos hB2, if_neg h]
  · conv_lhs => unfold utf8Recombine
    rw [if_neg (by omega), if_neg (by omega), if_neg (by omega), if_pos hB2, if_neg h]

theorem utf8Recombine_inl3_nil (B C1 C2 : Nat) (hB : 0xF0 ≤ B) :
    utf8Recombine [ Sum.inl B, Sum.inl C1, Sum.inl C2 ] = none := by
  conv_lhs => unfold utf8Recombine
  rw [if_neg (by omega), if_neg (by omega), if_neg (by omega), if_neg (by omega)]

theorem utf8Recombine_inl3_inr (B C1 C2 : Nat) (hB : 0xF0 ≤ B) (c : Char)
    (t : List (Sum Nat Char)) :
    utf8Recombine (Sum.inl B :: Sum.inl C1 :: Sum.inl C2 :: Sum.inr c :: t) = none := by
  conv_lhs => unfold utf8Recombine
  rw [if_neg (by omega), if_neg (by omega), if_neg (by omega), if_neg (by omega)]

theorem utf8Recombine_lead4_badc1 (B C1 : Nat) (rest : List (Sum Nat Char))
    (hB1 : 0xF0 ≤ B) (hB2 : B < 0xF8) (hC : ¬ (0x80 ≤ C1 ∧ C1 < 0xC0)) :
    utf8Recombine (Sum.inl B :: Sum.inl C1 :: rest) = none := by
  rcases rest with _ | ⟨x, t1⟩
  · exact utf8Recombine_inl2_nil B C1 (by omega)
  rcases x with C2 | c
  · rcases t1 with _ | ⟨y, t2⟩
    · exact utf8Recombine_inl3_nil B C1 C2 hB1
    rcases y with C3 | c
    · conv_lhs => unfold utf8Recombine
      rw [if_neg (by omega), if_neg (by omega), if_neg (by omega), if_neg (by omega),
        if_pos hB2, if_neg (fun hcond => hC hcond.1.1)]
    · exact utf8Recombine_inl3_inr B C1 C2 hB1 c t2
  · exact utf8Recombine_inl2_inr B C1 (by omega) c t1

theorem utf8Recombine_lead4_badc2 (B C1 C2 : Nat) (rest : List (Sum Nat Char))
    (hB1 : 0xF0 ≤ B) (hB2 : B < 0xF8) (hC2 : ¬ (0x80 ≤ C2 ∧ C2 < 0xC0)) :
    utf8Recombine (Sum.inl B :: Sum.inl C1 :: Sum.inl C2 :: rest) = none := by
  rcases rest with _ | ⟨x, t1⟩
  · exact utf8Recombine_inl3_nil B C1 C2 hB1
  rcases x with C3 | c
  · conv_lhs => unfold utf8Recombine
    rw [if_neg (by omega), if_neg (by omega), if_neg (by omega), if_neg (by omega),
      if_pos hB2, if_neg (fun hcond => hC2 hcond.1.2.1)]
  · exact utf8Recombine_inl3_inr B C1 C2 hB1 c t1

theorem utf8Recombine_lead4_badc3 (B C1 C2 C3 : Nat) (ts : List (Sum Nat Char))
    (hB1 : 0xF0 ≤ B) (hB2 : B < 0xF8) (hC3 : ¬ (0x80 ≤ C3 ∧ C3 < 0xC0)) :
    utf8Recombine (Sum.inl B :: Sum.inl C1 :: Sum.inl C2 :: Sum.inl C3 :: ts) = none := by
  conv_lhs => unfold utf8Recombine
  rw [if_neg (by omega), if_neg (by omega), if_neg (by omega), if_neg (by omega),
    if_pos hB2, if_neg (fun hcond => hC3 hcond.1.2.2)]

theorem utf8Recombine_lead4_ok (B C1 C2 C3 : Nat) (ts : List (Sum Nat Char))
    (hB1 : 0xF0 ≤ B) (hB2 : B < 0xF8)
    (h : ((0x80 ≤ C1 ∧ C1 < 0xC0) ∧ (0x80 ≤ C2 ∧ C2 < 0xC0) ∧ (0x80 ≤ C3 ∧ C3 < 0xC0)) ∧
      (0x10000 ≤ cp4 B C1 C2 C3 ∧ cp4 B C1 C2 C3 ≤ 0x10FFFF)) :
    utf8Recombine (Sum.inl B :: Sum.inl C1 :: Sum.inl C2 :: Sum.inl C3 :: ts)
      = (utf8Recombine ts).map (fun r => Char.ofNat (cp4 B C1 C2 C3) :: r) := by
  conv_lhs => unfold utf8Recombine
  rw [if_neg (by omega), if_neg (by omega), if_neg (by omega), if_neg (by omega),
    if_pos hB2, if_pos h]

theorem utf8Recombine_lead4_fail (B C1 C2 C3 : Nat) (ts : List (Sum Nat Char))
    (hB1 : 0xF0 ≤ B) (hB2 : B < 0xF8)
    (h : ¬ (((0x80 ≤ C1 ∧ C1 < 0xC0) ∧ (0x80 ≤ C2 ∧ C2 < 0xC0) ∧ (0x80 ≤ C3 ∧ C3 < 0xC0)) ∧
      (0x10000 ≤ cp4 B C1 C2 C3 ∧ cp4 B C1 C2 C3 ≤ 0x10FFFF))) :
    utf8Recombine (Sum.inl B :: Sum.inl C1 :: Sum.inl C2 :: Sum.inl C3 :: ts) = none := by
  conv_lhs => unfold utf8Recombine
  rw [if_neg (by omega), if_neg (by omega), if_neg (by omega), if_neg (by omega),
    if_pos hB2, if_neg h]

theorem utf8Recombine_bytes (c : Char) (ts : List (Sum Nat Char)) :
    utf8Recombine ((utf8Bytes c.toNat).map Sum.inl ++ ts)
      = (utf8Recombine ts).map (fun r => c :: r) := by
  have hv := char_toNat_lt c
  have hs := char_not_surrogate c
  unfold utf8Bytes
  by_cases h1 : c.toNat < 0x80
  · rw [if_pos h1]
    simp only [List.map_cons, List.map_nil, List.cons_append, List.nil_append]
    rw [utf8Recombine_ascii _ h1, Char.ofNat_toNat]
  · rw [if_neg h1]
    by_cases h2 : c.toNat < 0x800
    · rw [if_pos h2]
      simp only [List.map_cons, List.map_nil, List.cons_append, List.nil_append]
      have hcp : cp2 (0xC0 + c.toNat / 64) (0x80 + c.toNat % 64) = c.toNat := by
        unfold cp2
        omega
      rw [utf8Recombine_lead2_ok _ _ _ (by omega) (by omega)
        ⟨⟨by omega, by omega⟩, by rw [hcp]; omega⟩]
      rw [hcp, Char.ofNat_toNat]
    · rw [if_neg h2]
      by_cases h3 : c.toNat < 0x10000
      · rw [if_pos h3]
        simp only [List.map_cons, List.map_nil, List.cons_append, List.nil_append]
        have hcp : cp3 (0xE0 + c.toNat / 4096) (0x80 + c.toNat / 64 % 64)
            (0x80 + c.toNat % 64) = c.toNat := by
          unfold cp3
          omega
        rw [utf8Recombine_lead3_ok _ _ _ _ (by omega) (by omega)
          ⟨⟨⟨by omega, by omega⟩, by omega, by omega⟩, by rw [hcp]; exact ⟨by omega, hs⟩⟩]
        rw [hcp, Char.ofNat_toNat]
      · rw [if_neg h3]
        simp only [List.map_cons, List.map_nil, List.cons_append, List.nil_append]
        have hcp : cp4 (0xF0 + c.toNat / 262144) (0x80 + c.toNat / 4096 % 64)
            (0x80 + c.toNat / 64 % 64) (0x80 + c.toNat % 64) = c.toNat := by
          unfold cp4
          omega
        rw [utf8Recombine_lead4_ok _ _ _ _ _ (by omega) (by omega)
          ⟨⟨⟨by omega, by omega⟩, ⟨by omega, by omega⟩, by omega, by omega⟩,
            by rw [hcp]; exact ⟨by omega, by omega⟩⟩]
        rw [hcp, Char.ofNat_toNat]

theorem tokExpand_escaped_shape (c : Char) (h : isKept c = false) :
    ∃ b bs, tokExpand (Sum.inr c) = Sum.inl b :: bs ∧ ¬ (0x80 ≤ b ∧ b < 0xC0) := by
  rw [tokExpand_escaped h]
  obtain ⟨b, bs, hshape, hnc⟩ := utf8Bytes_shape c.toNat
  exact ⟨b, bs.map Sum.inl, by rw [hshape, List.map_cons], hnc⟩

theorem utf8Recombine_expand_aux :
    ∀ (n : Nat) (ts : List (Sum Nat Char)), ts.length ≤ n →
      utf8Recombine ((ts.map tokExpand).flatten) = utf8Recombine ts := by
  intro n
  induction n with
  | zero =>
    intro ts h
    have h0 : ts = [] := List.length_eq_zero.mp (Nat.le_zero.mp h)
    subst h0
    rfl
  | succ n ih =>
    intro ts hlen
    rcases ts with _ | ⟨x, t⟩
    · rfl
    rw [expandF_cons]
    rcases x with B | c
    case inr =>
      cases hk : isKept c
      · rw [tokExpand_escaped hk, utf8Recombine_bytes, utf8Recombine_inr]
        rw [ih t (by simp only [List.length_cons] at hlen; omega)]
      · rw [tokExpand_kept hk, List.singleton_append, utf8Recombine_inr, utf8Recombine_inr]
        rw [ih t (by simp only [List.length_cons] at hlen; omega)]
    case inl =>
      rw [tokExpand_inl, List.singleton_append]
      by_cases hB1 : B < 0x80
      · rw [utf8Recombine_ascii _ hB1, utf8Recombine_ascii _ hB1,
          ih t (by simp only [List.length_cons] at hlen; omega)]
      by_cases hB2 : B < 0xC0
      · rw [utf8Recombine_contFail _ (by omega) hB2, utf8Recombine_contFail _ (by omega) hB2]
      by_cases hB3 : B < 0xE0
      · rcases t with _ | ⟨y, t1⟩
        · simp only [List.map_nil, List.flatten_nil]
        rcases y with C1 | c
        · rw [expandF_cons, tokExpand_inl, List.singleton_append]
          by_cases hC : (0x80 ≤ C1 ∧ C1 < 0xC0) ∧ 0x80 ≤ cp2 B C1
          · rw [utf8Recombine_lead2_ok _ _ _ (by omega) hB3 hC,
              utf8Recombine_lead2_ok _ _ _ (by omega) hB3 hC,
              ih t1 (by simp only [List.length_cons] at hlen; omega)]
          · rw [utf8Recombine_lead2_fail _ _ _ (by omega) hB3 hC,
              utf8Recombine_lead2_fail _ _ _ (by omega) hB3 hC]
        · rw [expandF_cons]
          cases hk : isKept c
          · obtain ⟨b, bs, hsh, hnc⟩ := tokExpand_escaped_shape c hk
            rw [hsh]
            simp only [List.cons_append]
            rw [utf8Recombine_lead2_fail _ _ _ (by omega) hB3 (fun hcond => hnc hcond.1),
              utf8Recombine_inl_inr _ (by omega)]
          · rw [tokExpand_kept hk, List.singleton_append,
              utf8Recombine_inl_inr _ (by omega), utf8Recombine_inl_inr _ (by omega)]
      by_cases hB4 : B < 0xF0
      · rcases t with _ | ⟨y, t1⟩
        · simp only [List.map_nil, List.flatten_nil]
        rcases y with C1 | c
        · rw [expandF_cons, tokExpand_inl, List.singleton_append]
          rcases t1 with _ | ⟨z, t2⟩
          · simp only [List.map_nil, List.flatten_nil]
          rcases z with C2 | c
          · rw [expandF_cons, tokExpand_inl, List.singleton_append]
            by_cases hcnd : ((0x80 ≤ C1 ∧ C1 < 0xC0) ∧ (0x80 ≤ C2 ∧ C2 < 0xC0)) ∧
                (0x800 ≤ cp3 B C1 C2 ∧ ¬ (0xD800 ≤ cp3 B C1 C2 ∧ cp3 B C1 C2 < 0xE000))
            · rw [utf8Recombine_lead3_ok _ _ _ _ (by omega) hB4 hcnd,
                utf8Recombine_lead3_ok _ _ _ _ (by omega) hB4 hcnd,
                ih t2 (by simp only [List.length_cons] at hlen; omega)]
            · rw [utf8Recombine_lead3_fail _ _ _ _ (by omega) hB4 hcnd,
                utf8Recombine_lead3_fail _ _ _ _ (by omega) hB4 hcnd]
          · rw [expandF_cons]
            cases hk : isKept c
            · obtain ⟨b, bs, hsh, hnc⟩ := tokExpand_escaped_shape c hk
              rw [hsh]
              simp only [List.cons_append]
              rw [utf8Recombine_lead3_badc2 _ _ _ _ (by omega) hB4 hnc,
                utf8Recombine_inl2_inr _ _ (by omega)]
            · rw [tokExpand_kept hk, List.singleton_append,
                utf8Recombine_inl2_inr _ _ (by omega), utf8Recombine_inl2_inr _ _ (by omega)]
        · rw [expandF_cons]
          cases hk : isKept c
          · obtain ⟨b, bs, hsh, hnc⟩ := tokExpand_escaped_shape c hk
            rw [hsh]
            simp only [List.cons_append]
            rw [utf8Recombine_lead3_badc1 _ _ _ (by omega) hB4 hnc,
              utf8Recombine_inl_inr _ (by omega)]
          · rw [tokExpand_kept hk, List.singleton_append,
              utf8Recombine_inl_inr _ (by omega), utf8Recombine_inl_inr _ (by omega)]
      by_cases hB5 : B < 0xF8
      · rcases t with _ | ⟨y, t1⟩
        · simp only [List.map_nil, List.flatten_nil]
        rcases y with C1 | c
        · rw [expandF_cons, tokExpand_inl, List.singleton_append]
          rcases t1 with _ | ⟨z, t2⟩
          · simp only [List.map_nil, List.flatten_nil]
          rcases z with C2 | c
          · rw [expandF_cons, tokExpand_inl, List.singleton_append]
            rcases t2 with _ | ⟨w, t3⟩
            · simp only [List.map_nil, List.flatten_nil]
            rcases w with C3 | c
            · rw [expandF_cons, tokExpand_inl, List.singleton_append]
              by_cases hcnd : ((0x80 ≤ C1 ∧ C1 < 0xC0) ∧ (0x80 ≤ C2 ∧ C2 < 0xC0) ∧
                  (0x80 ≤ C3 ∧ C3 < 0xC0)) ∧
                  (0x10000 ≤ cp4 B C1 C2 C3 ∧ cp4 B C1 C2 C3 ≤ 0x10FFFF)
              · rw [utf8Recombine_lead4_ok _ _ _ _ _ (by omega) hB5 hcnd,
                  utf8Recombine_lead4_ok _ _ _ _ _ (by omega) hB5 hcnd,
                  ih t3 (by simp only [List.length_cons] at hlen; omega)]
              · rw [utf8Recombine_lead4_fail _ _ _ _ _ (by omega) hB5 hcnd,
                  utf8Recombine_lead4_fail _ _ _ _ _ (by omega) hB5 hcnd]
            · rw [expandF_cons]
              cases hk : isKept c
              · obtain ⟨b, bs, hsh, hnc⟩ := tokExpand_escaped_shape c hk
                rw [hsh]
                simp only [List.cons_append]
                rw [utf8Recombine_lead4_badc3 _ _ _ _ _ (by omega) hB5 hnc,
                  utf8Recombine_inl3_inr _ _ _ (by omega)]
              · rw [tokExpand_kept hk, List.singleton_append,
                  utf8Recombine_inl3_inr _ _ _ (by omega),
                  utf8Recombine_inl3_inr _ _ _ (by omega)]
          · rw [expandF_cons]
            cases hk : isKept c
            · obtain ⟨b, bs, hsh, hnc⟩ := tokExpand_escaped_shape c hk
              rw [hsh]
              simp only [List.cons_append]
              rw [utf8Recombine_lead4_badc2 _ _ _ _ (by omega) hB5 hnc,
                utf8Recombine_inl2_inr _ _ (by omega)]
            · rw [tokExpand_kept hk, List.singleton_append,
                utf8Recombine_inl2_inr _ _ (by omega), utf8Recombine_inl2_inr _ _ (by omega)]
        · rw [expandF_cons]
          cases hk : isKept c
          · obtain ⟨b, bs, hsh, hnc⟩ := tokExpand_escaped_shape c hk
            rw [hsh]
            simp only [List.cons_append]
            rw [utf8Recombine_lead4_badc1 _ _ _ (by omega) hB5 hnc,
              utf8Recombine_inl_inr _ (by omega)]
          · rw [tokExpand_kept hk, List.singleton_append,
              utf8Recombine_inl_inr _ (by omega), utf8Recombine_inl_inr _ (by omega)]
      · rw [utf8Recombine_highB _ (by omega), utf8Recombine_highB _ (by omega)]

theorem utf8Recombine_expand (ts : List (Sum Nat Char)) :
    utf8Recombine ((ts.map tokExpand).flatten) = utf8Recombine ts :=
  utf8Recombine_expand_aux ts.length ts (Nat.le_refl _)

theorem decode_percentEncode (q : String) : decode (percentEncode q) = decode q := by
  unfold decode percentEncode
  dsimp only
  rw [pctTokens_encodeList]
  cases hp : pctTokens q.data with
  | none => rfl
  | some ts =>
    dsimp only [Option.map_some']
    rw [utf8Recombine_expand]

theorem encChar_head_escaped {c : Char} (h : isKept c = false) :
    ∃ rest, encChar c = '%' :: rest := by
  rw [encChar_escaped h]
  obtain ⟨b, bs, hshape, _⟩ := utf8Bytes_shape c.toNat
  rw [hshape, List.map_cons, List.flatten_cons]
  refine ⟨hexDigitChar (b / 16) :: hexDigitChar (b % 16) :: ((bs.map escByte).flatten), ?_⟩
  simp [escByte]

theorem strip_percentEncode (p : String) :
    stripParseRoot (percentEncode p) = percentEncode (stripParseRoot p) := by
  rcases p with ⟨l⟩
  rcases l with _ | ⟨c, t⟩
  · rfl
  by_cases hc : c = '/'
  · subst hc
    have h1 : percentEncode ⟨ '/' :: t⟩ = ⟨ '/' :: encodeList t⟩ := by
      unfold percentEncode
      dsimp only
      rw [encodeList_cons, encChar_kept isKept_slash, List.singleton_append]
    have h2 : stripParseRoot ⟨ '/' :: encodeList t⟩ = ⟨encodeList t⟩ := rfl
    have h3 : stripParseRoot ⟨ '/' :: t⟩ = ⟨t⟩ := rfl
    rw [h1, h2, h3]
    rfl
  · have h3 : stripParseRoot ⟨c :: t⟩ = ⟨c :: t⟩ := by
      unfold stripParseRoot
      rw [if_neg (fun h => hc (by simpa using h))]
    rw [h3]
    cases hk : isKept c
    · obtain ⟨rest, hr⟩ := encChar_head_escaped hk
      have h4 : percentEncode ⟨c :: t⟩ = ⟨ '%' :: (rest ++ encodeList t)⟩ := by
        unfold percentEncode
        dsimp only
        rw [encodeList_cons, hr, List.cons_append]
      rw [h4]
      unfold stripParseRoot
      rw [if_neg (by intro h; simp at h)]
    · have h4 : percentEncode ⟨c :: t⟩ = ⟨c :: encodeList t⟩ := by
        unfold percentEncode
        dsimp only
        rw [encodeList_cons, encChar_kept hk, List.singleton_append]
      rw [h4]
      unfold stripParseRoot
      rw [if_neg (fun h => hc (by simpa using h))]

theorem escBytes_getLast : ∀ (bs : List Nat), bs ≠ [] →
    ∃ bl, bl ∈ bs ∧ ((bs.map escByte).flatten).getLast? = some (hexDigitChar (bl % 16)) := by
  intro bs
  induction bs with
  | nil => intro h; exact absurd rfl h
  | cons b t ih =>
    intro _
    rcases t with _ | ⟨b2, t2⟩
    · refine ⟨b, List.mem_cons_self b _, ?_⟩
      simp [escByte]
    · obtain ⟨bl, hmem, hlast⟩ := ih (by simp)
      refine ⟨bl, List.mem_cons_of_mem b hmem, ?_⟩
      rw [List.map_cons, List.flatten_cons, List.getLast?_append, hlast]
      rfl

theorem encodeList_getLast_slash : ∀ (l : List Char),
    ((encodeList l).getLast? = some ('/')) ↔ (l.getLast? = some ('/')) := by
  intro l
  induction l with
  | nil => simp [encodeList_nil]
  | cons c t ih =>
    rcases t with _ | ⟨c2, t2⟩
    · rw [encodeList_cons, encodeList_nil, List.append_nil]
      cases hk : isKept c
      · rw [encChar_escaped hk]
        obtain ⟨bl, hmem, hlast⟩ := escBytes_getLast (utf8Bytes c.toNat)
          (by obtain ⟨b, bs, hs, _⟩ := utf8Bytes_shape c.toNat; rw [hs]; simp)
        rw [hlast]
        constructor
        · intro h
          exact absurd (Option.some.inj h) (hexDigitChar_ne_slash _ (by omega))
        · intro h
          have hcs : c = '/' := by simpa using h
          subst hcs
          rw [isKept_slash] at hk
          cases hk
      · rw [encChar_kept hk]
    · rw [encodeList_cons]
      have hne : encodeList (c2 :: t2) ≠ [] := by
        rw [encodeList_cons]
        intro h
        exact encChar_ne_nil c2 (List.append_eq_nil.mp h).1
      rw [List.getLast?_append]
      cases hgl : (encodeList (c2 :: t2)).getLast? with
      | none =>
        exact absurd (by simpa using hgl) hne
      | some a =>
        show some a = some ('/') ↔ _
        rw [← hgl, ih, List.getLast?_cons_cons]

theorem lastIsSlash_percentEncode (p : String) :
    lastIsSlash (percentEncode p) = lastIsSlash p := by
  unfold lastIsSlash percentEncode
  dsimp only
  exact decide_eq_decide.mpr (encodeList_getLast_slash p.data)

theorem percentEncode_ne_empty {p : String} (h : p ≠ "") : percentEncode p ≠ "" := by
  rcases p with ⟨l⟩
  rcases l with _ | ⟨c, t⟩
  · exact absurd rfl h
  unfold percentEncode
  intro he
  have hd : encodeList (c :: t) = [] := congrArg String.data he
  rw [encodeList_cons] at hd
  exact encChar_ne_nil c (List.append_eq_nil.mp hd).1

/-! ## Claim C8 -/

/-- C8: resolving the percent-encoded form of a path yields exactly the same
result — outcome, response mutations, `encodingExt` and filesystem trace —
as resolving the path itself.  The encoder leaves `%` intact, so literal
malformed escape sequences are preserved and fail with the 400 outcome in
both representations (a special case of this equality). -/
theorem percent_encoded_request_agrees (fs : FileSys) (ctx : Ctx) (o : Opts) (p : String) :
    send fs ctx (percentEncode p) o = send fs ctx p o := by
  by_cases hp : p = ""
  · subst hp
    rfl
  · unfold send
    rw [if_neg hp, if_neg (percentEncode_ne_empty hp)]
    rw [lastIsSlash_percentEncode, strip_percentEncode, decode_percentEncode]
